import Mathlib

/-!
A shallow embedding, in Lean 4, of the core of the sime input-method engine
(structured-perceptron beam-search decoder with early-update training),
together with proofs and refutations of a fixed list of claims about it.

Modelling conventions:
* C++ strings are modelled as lists of characters (`Str`); all length and
  position bookkeeping is in characters, consistently on both sides.
* C++ doubles are modelled as exact rationals.  The text the model
  serializer writes for a weight is the stream's default %g form at
  precision 6 (`printDouble`): the value is rounded to 6 significant
  decimal digits before printing, so serialization is lossy exactly as the
  program's is; the reader (`parseDouble`) follows the stream double
  grammar.  `exp` used for softmax is an arbitrary function parameter,
  since no claim treated here depends on its values.
* Raw pointers into the beam vectors are modelled as indices
  (lattice tag, step, offset), following the index-based reformulation the
  project documentation itself suggests; pointer equality is equality of
  these indices, and pointers into the reference lattice and into the
  search lattice are distinct.
* `std::sort`, which the decoder uses for beam pruning, guarantees only a
  sorted permutation (ties are in unspecified order).  It is therefore
  modelled relationally: decoding takes a schedule of index permutations,
  one per sort call, and a validity check (`validPerm`) states that the
  chosen permutation is one `std::sort` could produce.
-/

set_option maxHeartbeats 1000000
set_option allowUnsafeReducibility true

attribute [local semireducible] Rat.add Rat.mul Rat.div Rat.sub Rat.neg Rat.inv

abbrev Str := List Char

/-- Character list of a string literal. -/
def str (s : String) : Str := s.data

/-- Whitespace in the sense of the C++ stream extraction operator. -/
def isWsChar (c : Char) : Bool :=
  c = ' ' || c = '\t' || c = '\n' || c = '\x0b' || c = '\x0c' || c = '\r'

/-- Decimal digit character for a digit value below ten. -/
def digitChar (d : Nat) : Char :=
  match d with
  | 0 => '0' | 1 => '1' | 2 => '2' | 3 => '3' | 4 => '4'
  | 5 => '5' | 6 => '6' | 7 => '7' | 8 => '8' | _ => '9'

/-- Numeric value of a digit character. -/
def digitVal (c : Char) : Nat := c.toNat - 48

/-- Test for a decimal digit character. -/
def isDigitChar (c : Char) : Bool := 48 ≤ c.toNat && c.toNat ≤ 57

/-- Little-endian base-ten digits, by fuel-bounded structural recursion. -/
def digitsRev : Nat → Nat → List Nat
  | 0, _ => []
  | fuel + 1, n => if n = 0 then [] else n % 10 :: digitsRev fuel (n / 10)

/-- Exact decimal printing of a natural number. -/
def printNat (n : Nat) : Str :=
  if n = 0 then ['0'] else ((digitsRev n n).reverse).map digitChar

/-- Parse a token consisting solely of decimal digits. -/
def parseNat (s : Str) : Option Nat :=
  if s ≠ [] && s.all isDigitChar then
    some (Nat.ofDigits 10 ((s.map digitVal).reverse))
  else
    none

/-- Split a character list at every occurrence of the separator, keeping
empty chunks, as a getline loop does. -/
def splitSep (sep : Char) : Str → List Str
  | [] => [[]]
  | c :: cs =>
    if c = sep then
      [] :: splitSep sep cs
    else
      match splitSep sep cs with
      | [] => [[c]]
      | t :: ts => (c :: t) :: ts

/-- Whitespace tokenizer: accumulate the current token (reversed) while
scanning, emit on whitespace, as repeated stream extraction does. -/
def splitWsAux : Str → Str → List Str
  | [], acc => if acc = [] then [] else [acc.reverse]
  | c :: cs, acc =>
    if isWsChar c then
      if acc = [] then splitWsAux cs [] else acc.reverse :: splitWsAux cs []
    else
      splitWsAux cs (c :: acc)

/-- All maximal whitespace-free tokens of a line. -/
def splitWs (s : Str) : List Str := splitWsAux s []

/-- Numeric value of a digit string read left to right, zero when empty;
leading zeros are permitted, as stream numeric extraction permits them. -/
def digitsVal (s : Str) : Nat := s.foldl (fun a c => 10 * a + digitVal c) 0

/-- The exponent field of a parsed double: an optional sign, then digits
that must run to the end of the token. -/
def parseExpPart (mant : ℚ) (t : Str) : Option ℚ :=
  let esg : Int := if t.head? = some '-' then -1 else 1
  let t1 : Str := if t.head? = some '-' ∨ t.head? = some '+' then t.tail else t
  let ed := t1.takeWhile isDigitChar
  let r3 := t1.dropWhile isDigitChar
  if ed = [] ∨ r3 ≠ [] then none
  else some (mant * (10 : ℚ) ^ (esg * (digitsVal ed : Int)))

/-- The unsigned double grammar of stream extraction: digits, an optional
point with further digits, an optional exponent field; at least one
mantissa digit must be present and the token must be wholly consumed. -/
def parseUnsigned (s : Str) : Option ℚ :=
  let ip := s.takeWhile isDigitChar
  let r1 := s.dropWhile isDigitChar
  let fp : Str := if r1.head? = some '.' then r1.tail.takeWhile isDigitChar else []
  let r2 : Str := if r1.head? = some '.' then r1.tail.dropWhile isDigitChar else r1
  if ip = [] ∧ fp = [] then none
  else
    let mant : ℚ := (digitsVal ip : ℚ) + (digitsVal fp : ℚ) / (10 : ℚ) ^ fp.length
    if r2 = [] then some mant
    else if r2.head? = some 'e' ∨ r2.head? = some 'E' then parseExpPart mant r2.tail
    else none

/-- Parse a double token as stream extraction does: an optional sign, then
the unsigned grammar.  The caller zeroes the target on failure, as C++
streams have done since C++11. -/
def parseDouble (s : Str) : Option ℚ :=
  if s.head? = some '-' then (parseUnsigned s.tail).map (fun v => -v)
  else if s.head? = some '+' then parseUnsigned s.tail
  else parseUnsigned s

/-- Little-endian decimal digits of n padded with zeros up to width L. -/
def padDigits (n L : Nat) : List Nat :=
  digitsRev n n ++ List.replicate (L - (digitsRev n n).length) 0

/-- The fraction field: n rendered in exactly L decimal places with the
trailing zeros stripped, as %g printing strips them. -/
def fracStr (n L : Nat) : Str :=
  (((padDigits n L).dropWhile (fun d => d = 0)).reverse).map digitChar

/-- The fixed-notation %g rendering of the value m·10^(X−5). -/
def fixedForm (m : Nat) (X : Int) : Str :=
  let L := ((5 : Int) - X).toNat
  printNat (m / 10 ^ L) ++
    (if fracStr (m % 10 ^ L) L = [] then []
     else '.' :: fracStr (m % 10 ^ L) L)

/-- The exponent field of scientific %g: a sign, then at least two digits. -/
def sciExpStr (X : Int) : Str :=
  (if X < 0 then '-' else '+') ::
    (if X.natAbs < 10 then '0' :: printNat X.natAbs else printNat X.natAbs)

/-- The scientific %g rendering of the value m·10^(X−5). -/
def sciForm (m : Nat) (X : Int) : Str :=
  printNat (m / 10 ^ 5) ++
    (if fracStr (m % 10 ^ 5) 5 = [] then []
     else '.' :: fracStr (m % 10 ^ 5) 5) ++
    'e' :: sciExpStr X

/-- The default stream rendering (%g, precision 6) of a positive value with
six-digit significand m (10^5 ≤ m < 10^6) and decimal exponent X: fixed
notation for moderate exponents, scientific notation otherwise. -/
def formG (m : Nat) (X : Int) : Str :=
  if -4 ≤ X ∧ X < 6 then fixedForm m X else sciForm m X

/-- Decimal exponent of a positive rational: the unique X with
10^X ≤ a < 10^(X+1), computed from the digit counts of numerator and
denominator. -/
def decExp (a : ℚ) : Int :=
  let n := a.num.toNat
  let ln : Int := (digitsRev n n).length
  let ld : Int := (digitsRev a.den a.den).length
  if (10 : ℚ) ^ (ln - ld) ≤ a then ln - ld else ln - ld - 1

/-- Round a positive rational to six significant decimal digits: the
significand m with 10^5 ≤ m < 10^6 and the decimal exponent, renormalized
when rounding overflows the significand to 10^6.  This is the decimal
rounding the stream default precision applies to every written weight. -/
def sig6 (a : ℚ) : Nat × Int :=
  let X := decExp a
  let m := (round (a * (10 : ℚ) ^ ((5 : Int) - X))).toNat
  if m = 10 ^ 6 then (10 ^ 5, X + 1) else (m, X)

/-- The text Model::save writes for one weight value (os << value with the
stream defaults: defaultfloat, precision 6): the %g rendering of the
6-significant-digit rounding, a minus sign for negatives, 0 printed as 0.
Serialization is therefore lossy beyond 6 significant digits, exactly as
the program's is. -/
def printDouble (q : ℚ) : Str :=
  if q = 0 then ['0']
  else if q < 0 then '-' :: formG (sig6 (-q)).1 (sig6 (-q)).2
  else formG (sig6 q).1 (sig6 q).2

/-- The value the printed text denotes: the 6-significant-digit decimal
rounding of the exact value. -/
def sigRound6 (q : ℚ) : ℚ :=
  if q = 0 then 0
  else if q < 0 then -(((sig6 (-q)).1 : ℚ) * (10 : ℚ) ^ ((sig6 (-q)).2 - 5))
  else ((sig6 q).1 : ℚ) * (10 : ℚ) ^ ((sig6 q).2 - 5)

/-! ### The sparse linear model (src/ime/model.h, model.cc)

The weight table is an `std::unordered_map<std::string, double>`; it is
modelled as an association list without duplicate keys, looked up by first
match.  Iteration order of the C++ map is unspecified, but no property below
depends on it, so list order stands in for it. -/

/-- Weight table of the model. -/
abbrev Weights := List (Str × ℚ)

/-- Lookup of a feature weight (map find). -/
def findWeight (w : Weights) (k : Str) : Option ℚ :=
  (w.find? (fun p => decide (p.1 = k))).map (·.2)

/-- Map emplace: insert the pair only when the key is absent, exactly like
unordered_map emplace, which does not overwrite an existing mapping. -/
def emplaceW (w : Weights) (k : Str) (v : ℚ) : Weights :=
  if (w.find? (fun p => decide (p.1 = k))).isSome then w else w ++ [(k, v)]

/-- Dot product of the weight table with a feature list; features whose key
is not in the table contribute 0 (Model::score inner loops). -/
def dotW (w : Weights) (fs : List (Str × ℚ)) : ℚ :=
  (fs.map (fun f => f.2 * ((findWeight w f.1).getD 0))).sum

/-- Auto-vivifying additive update of one weight:
weights[k] += x (operator[] inserts 0 first when the key is absent). -/
def bumpW (w : Weights) (k : Str) (x : ℚ) : Weights :=
  if (w.find? (fun p => decide (p.1 = k))).isSome then
    w.map (fun p => if p.1 = k then (p.1, p.2 + x) else p)
  else
    w ++ [(k, x)]

/-- SGD update over one feature list (Model::update):
for each pair, weights[key] += value * delta * learning_rate. -/
def updateW (lr : ℚ) (w : Weights) (fs : List (Str × ℚ)) (delta : ℚ) : Weights :=
  fs.foldl (fun acc f => bumpW acc f.1 (f.2 * delta * lr)) w

/-- Serialized form of the weight table (Model::save): one line per weight,
key, a tab, the printed weight, a newline. -/
def saveModel (w : Weights) : Str :=
  (w.map (fun p => p.1 ++ '\t' :: printDouble p.2 ++ ['\n'])).flatten

/-- Parse one line of a model file: the key is the first whitespace token
(skip the line if there is none), the weight the numeric value of the second
token, 0 when that extraction fails (C++ streams zero the target then). -/
def parseModelLine (line : Str) : Option (Str × ℚ) :=
  match splitWs line with
  | [] => none
  | f :: rest =>
    some (f, match rest with
      | [] => 0
      | t :: _ => (parseDouble t).getD 0)

/-- Deserialize a weight table (Model::load): clear the previous weights,
then getline over the stream, parsing each line and inserting with map
emplace, so an already-present key is never overwritten. -/
def loadModel (_old : Weights) (s : Str) : Weights :=
  ((splitSep '\n' s).filterMap parseModelLine).foldl
    (fun acc e => emplaceW acc e.1 e.2) []

/-! ### Metrics (src/ime/common.h)

The store is an `std::map<std::string, double>`; `set` uses map emplace and
`get` returns NAN for a missing key.  NAN, being a float sentinel for
absence, is modelled by `Option.none`. -/

/-- Metrics: an insert-only association store. -/
structure Metrics where
  data : List (Str × ℚ)
deriving DecidableEq

/-- Metrics with no entry set. -/
def Metrics.empty : Metrics := ⟨[]⟩

/-- Metrics::get — the stored value, or none (modelling NAN) when absent. -/
def Metrics.get (m : Metrics) (k : Str) : Option ℚ :=
  (m.data.find? (fun p => decide (p.1 = k))).map (·.2)

/-- Metrics::set — map emplace: inserts only when the key is absent. -/
def Metrics.set (m : Metrics) (k : Str) (v : ℚ) : Metrics :=
  ⟨if (m.data.find? (fun p => decide (p.1 = k))).isSome then m.data
   else m.data ++ [(k, v)]⟩

/-! ### Words and the dictionary (src/ime/common.h, dict.h, dict.cc)

Entries live in an `std::multimap` keyed by code; `find` returns the range
of entries whose code equals the query.  The list of entries stands in for
the multimap, and `find` filters it, keeping each entry paired with its
position, which models the address identity of the stored Word. -/

/-- Word: a dictionary entry. -/
structure Word where
  code : Str
  text : Str
deriving DecidableEq

/-- Dictionary state: configured limits, then the fields Dictionary::load
maintains.  The numeric word ids dict.cc assigns are tracked by max_id. -/
structure Dictionary where
  min_id : Nat
  code_len_limit : Nat
  text_len_limit : Nat
  max_id : Nat
  max_code_len : Nat
  max_text_len : Nat
  data : List Word
deriving DecidableEq

/-- Dictionary::find — all entries whose code equals the query, each with
its position in the table. -/
def Dictionary.find (d : Dictionary) (c : Str) : List (Nat × Word) :=
  ((List.range d.data.length).zip d.data).filter (fun p => decide (p.2.code = c))

/-- Parse one line of a dictionary or sample file into its first two
whitespace tokens (empty when missing); further tokens are ignored. -/
def parseTwoTokens (line : Str) : Str × Str :=
  match splitWs line with
  | [] => ([], [])
  | [c] => (c, [])
  | c :: t :: _ => (c, t)

/-- Acceptance test of Dictionary::load: both fields nonempty and both
within the configured length limits. -/
def dictAccepts (d : Dictionary) (c t : Str) : Bool :=
  c ≠ [] && t ≠ [] && c.length ≤ d.code_len_limit && t.length ≤ d.text_len_limit

/-- One iteration of the Dictionary::load loop. -/
def dictLoadLine (d : Dictionary) (line : Str) : Dictionary :=
  let (c, t) := parseTwoTokens line
  if dictAccepts d c t then
    { d with
      data := d.data ++ [⟨c, t⟩],
      max_id := d.max_id + 1,
      max_code_len := max d.max_code_len c.length,
      max_text_len := max d.max_text_len t.length }
  else
    d

/-- Dictionary::load: clear the table, reset max_id to min_id and the
recorded maxima to 0, then fold the getline loop over the stream. -/
def dictLoad (d : Dictionary) (s : Str) : Dictionary :=
  (splitSep '\n' s).foldl dictLoadLine
    { d with data := [], max_id := d.min_id, max_code_len := 0, max_text_len := 0 }

/-- The entries of a list of lines that Dictionary::load accepts, in
order; acceptance reads only the configured limits of the dictionary. -/
def acceptedLines (d : Dictionary) (lines : List Str) : List Word :=
  lines.filterMap (fun line =>
    let (c, t) := parseTwoTokens line
    if dictAccepts d c t then some (⟨c, t⟩ : Word) else none)

/-- The entries of a stream that Dictionary::load accepts, in order. -/
def dictAccepted (d : Dictionary) (s : Str) : List Word :=
  acceptedLines d (splitSep '\n' s)

/-! ### The lattice node (src/ime/common.h) and decoder (src/ime/decoder.cc)

Beams are a list of steps, each a list of nodes, as in the
`std::vector<std::vector<Node>>` decoder.  A raw node pointer becomes a
`Ptr`: which lattice the node lives in (the text-constrained reference
lattice of a training step, or the unconstrained search lattice), its step,
and its offset in that beam; distinct lattices never alias.  Word pointers
become `WordRef`: the static begin/end sentinel, or a position in the
dictionary table. -/

/-- Identity of the word cited by a node: the bos/eos sentinel or a
dictionary entry at a given table position. -/
inductive WordRef where
  | sentinel : WordRef
  | entry (i : Nat) : WordRef
deriving DecidableEq

/-- Address of a node: lattice tag (true for the reference lattice), step,
offset within the beam of that step. -/
structure Ptr where
  ref : Bool
  step : Nat
  idx : Nat
deriving DecidableEq

/-- The word a reference denotes; the sentinel has empty code and text. -/
def wordOf (d : Dictionary) : WordRef → Word
  | WordRef.sentinel => ⟨[], []⟩
  | WordRef.entry i => d.data.getD i ⟨[], []⟩

/-- Lattice node, with the fields of struct Node. -/
structure Node where
  prev : Option Ptr
  code_pos : Nat
  text_pos : Nat
  word : Option WordRef
  prev_word : Option Ptr
  local_features : List (Str × ℚ)
  global_features : List (Str × ℚ)
  local_score : ℚ
  score : ℚ
deriving DecidableEq

/-- The default-constructed node Node(). -/
def Node.init : Node := ⟨none, 0, 0, none, none, [], [], 0, 0⟩

abbrev Beams := List (List Node)

/-- Dereference a node pointer in the beams of its own lattice. -/
def resolve (bs : Beams) (p : Ptr) : Option Node :=
  (bs[p.step]?).bind (fun b => b[p.idx]?)

/-- Elements of a list paired with their positions counting from i. -/
def withIdxFrom {α : Type} (i : Nat) : List α → List (Nat × α)
  | [] => []
  | a :: t => (i, a) :: withIdxFrom (i + 1) t

/-- Each element of a list paired with its position (models taking the
address of each element while iterating a vector). -/
def withIdx {α : Type} (l : List α) : List (Nat × α) :=
  withIdxFrom 0 l

/-- The successor constructor Node(const Node *prev): copy the cursors,
no word, and prev_word := prev if prev carries a word else prev.prev_word. -/
def mkSucc (pptr : Ptr) (pn : Node) : Node :=
  { prev := some pptr,
    code_pos := pn.code_pos,
    text_pos := pn.text_pos,
    word := none,
    prev_word := if pn.word.isSome then some pptr else pn.prev_word,
    local_features := [], global_features := [],
    local_score := 0, score := 0 }

/-- The reduction constructor Node(prev, code_pos, text_pos, word). -/
def mkReduceNode (pptr : Ptr) (pn : Node) (cp tp : Nat) (wr : WordRef) : Node :=
  { mkSucc pptr pn with code_pos := cp, text_pos := tp, word := some wr }

/-- Text of the word of the node a prev_word pointer denotes
(node.prev_word->word->text). -/
def prevWordText (d : Dictionary) (bs : Beams) (pw : Ptr) : Str :=
  match resolve bs pw with
  | some m => (wordOf d (m.word.getD WordRef.sentinel)).text
  | none => []

/-- Decoder::make_features: a unigram local feature when the node carries a
word with nonempty text, a bigram local feature when it also has a previous
word, and always the global feature code_len:(pos − code_pos) with value 1. -/
def makeFeatures (d : Dictionary) (bs : Beams) (pos : Nat) (n : Node) : Node :=
  let n1 :=
    match n.word with
    | none => n
    | some wr =>
      let wt := (wordOf d wr).text
      let na :=
        if wt ≠ [] then
          { n with local_features := n.local_features ++ [(str "unigram:" ++ wt, 1)] }
        else n
      match n.prev_word with
      | none => na
      | some pw =>
        { na with local_features :=
            na.local_features ++ [(str "bigram:" ++ prevWordText d bs pw ++ '_' :: wt, 1)] }
  { n1 with global_features :=
      n1.global_features ++ [(str "code_len:" ++ printNat (pos - n1.code_pos), 1)] }

/-- Model::compute_score: take the local score of the predecessor (0 at the
root), add the weighted local features, and set the full score by further
adding the weighted global features. -/
def computeScore (w : Weights) (bs : Beams) (n : Node) : Node :=
  let base :=
    match n.prev with
    | none => 0
    | some p => ((resolve bs p).map Node.local_score).getD 0
  let ls := base + dotW w n.local_features
  { n with local_score := ls, score := ls + dotW w n.global_features }

/-- Modelled from the spec: Decoder::can_shift, whose body is missing from
the provided sources (only its call site in advance is present).  A shift is
permitted iff pos < |code| and pos − prev.code_pos < dict.max_code_len(). -/
def canShift (d : Dictionary) (pn : Node) (code : Str) (pos : Nat) : Bool :=
  pos < code.length && pos - pn.code_pos < d.max_code_len

/-- Modelled from the spec: Decoder::can_reduce, whose body is missing from
the provided sources.  With a text constraint the remaining target text must
start with the word text; without one every dictionary match reduces. -/
def canReduce (pn : Node) (text : Str) (w : Word) : Bool :=
  text = [] || (text.drop pn.text_pos).take w.text.length = w.text

/-- Scores of a candidate list arranged by an index permutation. -/
def applyPerm (p : List Nat) (beam : List Node) : List Node :=
  p.filterMap (fun i => beam[i]?)

/-- Nonincreasing test on a score list. -/
def descendingScores : List ℚ → Bool
  | [] => true
  | [_] => true
  | a :: b :: t => (decide (b ≤ a)) && descendingScores (b :: t)

/-- A permutation std::sort with comparator (score-greater) may produce:
a rearrangement of all candidate indices whose score list is nonincreasing.
Tie order is unspecified, so any such rearrangement is a possible outcome. -/
def validPerm (p : List Nat) (beam : List Node) : Bool :=
  (p.length = beam.length) &&
  (List.range beam.length).all (fun i => p.contains i) &&
  descendingScores ((applyPerm p beam).map Node.score)

/-- Running state of one decode: the beams built so far, the remaining sort
schedule, the success flag, and whether every consumed schedule entry was a
valid std::sort outcome. -/
structure DecSt where
  beams : Beams
  sched : List (List Nat)
  ok : Bool
  schedOk : Bool
deriving DecidableEq

/-- Decoder::topk: std::sort the beam by descending score (one schedule
entry stands for the permutation the sort produced), then truncate to
beam_size. -/
def topkStep (bsz : Nat) (beam : List Node) (st : DecSt) : List Node × DecSt :=
  match st.sched with
  | [] => ((applyPerm [] beam).take bsz, { st with sched := [], schedOk := false })
  | p :: rest =>
    ((applyPerm p beam).take bsz,
     { st with sched := rest, schedOk := st.schedOk && validPerm p beam })

/-- The candidate successors one advance step creates, in emplacement order:
for each predecessor, its shift successor when permitted, then one reduction
per dictionary entry matching the consumed code slice and compatible with
the text constraint; every candidate gets its features and scores. -/
def advanceCands (d : Dictionary) (w : Weights) (t : Bool) (code text : Str)
    (pos : Nat) (bs : Beams) : List Node :=
  let prevStep := bs.length - 1
  let prevBeam := (bs.getLast?).getD []
  (withIdx prevBeam).flatMap (fun q =>
    let pn := q.2
    let pptr : Ptr := ⟨t, prevStep, q.1⟩
    let subcode := (code.drop pn.code_pos).take (pos - pn.code_pos)
    let shifts :=
      if canShift d pn code pos then
        [computeScore w bs (makeFeatures d bs pos (mkSucc pptr pn))]
      else []
    let reduces := (d.find subcode).filterMap (fun ew =>
      if canReduce pn text ew.2 then
        some (computeScore w bs (makeFeatures d bs pos
          (mkReduceNode pptr pn pos (pn.text_pos + ew.2.text.length) (WordRef.entry ew.1))))
      else none)
    shifts ++ reduces)

/-- Decoder::advance: build the candidate beam; fail on empty, otherwise
prune with topk and append. -/
def advanceStep (d : Dictionary) (w : Weights) (t : Bool) (code text : Str)
    (pos bsz : Nat) (st : DecSt) : DecSt :=
  let cands := advanceCands d w t code text pos st.beams
  if cands = [] then
    { st with beams := st.beams ++ [[]], ok := false }
  else
    let (nb, st') := topkStep bsz cands st
    { st' with beams := st.beams ++ [nb], ok := true }

/-- The candidates of Decoder::end_decode: one eos-sentinel successor per
predecessor that consumed the whole code (and the whole text when
constrained); the sentinel word is assigned after construction, so
prev_word is computed as for a shift successor. -/
def endCands (d : Dictionary) (w : Weights) (t : Bool) (code text : Str)
    (bs : Beams) : List Node :=
  let prevStep := bs.length - 1
  let prevBeam := (bs.getLast?).getD []
  (withIdx prevBeam).filterMap (fun q =>
    let pn := q.2
    if pn.code_pos = code.length && (text = [] || decide (pn.text_pos = text.length)) then
      some (computeScore w bs (makeFeatures d bs code.length
        { mkSucc ⟨t, prevStep, q.1⟩ pn with word := some WordRef.sentinel }))
    else none)

/-- Decoder::end_decode: append the eos beam, failing when it is empty. -/
def endStep (d : Dictionary) (w : Weights) (t : Bool) (code text : Str)
    (bsz : Nat) (st : DecSt) : DecSt :=
  let cands := endCands d w t code text st.beams
  if cands = [] then
    { st with beams := st.beams ++ [[]], ok := false }
  else
    let (nb, st') := topkStep bsz cands st
    { st' with beams := st.beams ++ [nb], ok := true }

/-- Initial decoding state.  Modelled from the spec: this variant of
init_beams (missing from the provided sources, which hold only an older
variant) clears the beams; begin_decode then makes step 0 the single node
carrying the bos sentinel word, so that indeces[i] = 0 points at the step-0
root of every reference path. -/
def beginState (sched : List (List Nat)) : DecSt :=
  { beams := [[{ Node.init with word := some WordRef.sentinel }]],
    sched := sched, ok := true, schedOk := true }

/-- The advance loop of Decoder::decode, one step per code position. -/
def decodeLoop (d : Dictionary) (w : Weights) (t : Bool) (code text : Str)
    (bsz : Nat) : Nat → Nat → DecSt → DecSt
  | 0, _, st => st
  | f + 1, pos, st =>
    if st.ok then
      decodeLoop d w t code text bsz f (pos + 1)
        (advanceStep d w t code text pos bsz st)
    else st

/-- Decoder::decode: begin, advance over positions 1..|code|, then
end_decode; the ok flag of the result is the return value. -/
def decodeWith (d : Dictionary) (w : Weights) (t : Bool) (code text : Str)
    (bsz : Nat) (sched : List (List Nat)) : DecSt :=
  let st := decodeLoop d w t code text bsz code.length 1 (beginState sched)
  if st.ok then endStep d w t code text bsz st else st

/-- The prev chain of a node, rear first, cut off by fuel. -/
def chainNodes (bs : Beams) : Nat → Node → List Node
  | 0, n => [n]
  | f + 1, n =>
    n :: (match n.prev with
      | none => []
      | some p =>
        match resolve bs p with
        | none => []
        | some m => chainNodes bs f m)

/-- A root-to-rear path (Decoder::get_paths builds each path by walking
prev and reversing). -/
def pathOf (bs : Beams) (n : Node) : List Node :=
  (chainNodes bs bs.length n).reverse

/-- Decoder::get_paths over the whole final beam, in beam order. -/
def getPaths (bs : Beams) : List (List Node) :=
  ((bs.getLast?).getD []).map (pathOf bs)

/-- The local-feature part of Model::score: walk the whole prev chain and
sum the weighted local features of every node on it. -/
def walkLocal (w : Weights) (bs : Beams) : Nat → Node → ℚ
  | 0, n => dotW w n.local_features
  | f + 1, n =>
    dotW w n.local_features +
      (match n.prev with
       | none => 0
       | some p =>
         match resolve bs p with
         | none => 0
         | some m => walkLocal w bs f m)

/-- Model::score, the reference scoring routine: re-walk the prev chain
summing weights times local features, then add weights times the global
features of the rear node; unknown keys contribute 0 through dotW. -/
def walkScore (w : Weights) (bs : Beams) (fuel : Nat) (n : Node) : ℚ :=
  walkLocal w bs fuel n + dotW w n.global_features

/-! ### Early-update training (src/ime/decoder.cc lines 498-695) -/

/-- The out-of-beam sentinel index, std::numeric_limits of size_t max. -/
def SIZE_MAX : Nat := 18446744073709551615

/-- The node at position pos of reference path i. -/
def refNodeAt (paths : List (List Node)) (i pos : Nat) : Node :=
  (paths.getD i []).getD pos Node.init

/-- Decoder::match: per reference whose tracked ancestor is still inside
the previous beam, the first node of the current beam whose prev pointer is
that ancestor and whose word pointer equals the word of the reference node
at this position.  When no reference matches, a copy of the reference node
of the first reference with an in-beam ancestor is appended to the current
beam, its prev rewired to that ancestor and its prev_word rewired only when
that ancestor carries a word.  Returns (beams, indeces, found). -/
def matchStep (beams : Beams) (paths : List (List Node)) (pos : Nat)
    (indeces : List Nat) : Beams × List Nat × Bool :=
  let cur := (beams[pos]?).getD []
  let prevB := (beams[pos - 1]?).getD []
  let resultsO : List (Option Nat) := (withIdx indeces).map (fun q =>
    if q.2 < prevB.length then
      ((withIdx cur).find? (fun r =>
        decide (r.2.prev = some ⟨false, pos - 1, q.2⟩) &&
        decide (r.2.word = (refNodeAt paths q.1 pos).word))).map (·.1)
    else none)
  let newIndeces := resultsO.map (fun o => o.getD SIZE_MAX)
  if resultsO.any Option.isSome then
    (beams, newIndeces, true)
  else
    let q0 := ((withIdx indeces).find? (fun q => decide (q.2 < prevB.length))).getD (0, 0)
    let prevNode := prevB.getD q0.2 Node.init
    let copy := refNodeAt paths q0.1 pos
    let nf : Node :=
      { copy with
        prev := some ⟨false, pos - 1, q0.2⟩,
        prev_word :=
          if prevNode.word.isSome then some ⟨false, pos - 1, q0.2⟩ else copy.prev_word }
    (beams.set pos (cur ++ [nf]), newIndeces.set q0.1 cur.length, false)

/-- The label-selection loop at the end of early_update: scan the tracked
indices and return the first one that lies inside the final beam. -/
def labelScan (indeces : List Nat) (len : Nat) : Nat :=
  match indeces with
  | [] => 0
  | x :: rest => if x < len then x else labelScan rest len

/-- Running state of the early-update tracking loop. -/
structure EuSt where
  beams : Beams
  sched : List (List Nat)
  schedOk : Bool
  indeces : List Nat
  pos : Nat
  succ : Bool
deriving DecidableEq

/-- The tracking loop of early_update: per position, advance the
unconstrained search (its own success flag is ignored there), then match
against the reference paths; stop once no reference matched. -/
def euLoop (d : Dictionary) (w : Weights) (code : Str) (bsz : Nat)
    (paths : List (List Node)) : Nat → EuSt → EuSt
  | 0, st => st
  | f + 1, st =>
    if st.succ then
      let dst := advanceStep d w false code [] st.pos bsz
        { beams := st.beams, sched := st.sched, ok := true, schedOk := st.schedOk }
      let r := matchStep dst.beams paths st.pos st.indeces
      euLoop d w code bsz paths f
        { beams := r.1, sched := dst.sched, schedOk := dst.schedOk,
          indeces := r.2.1, pos := st.pos + 1, succ := r.2.2 }
    else st

/-- Result of the tracking overload of Decoder::early_update. -/
structure EuResult where
  beams : Beams
  sched : List (List Nat)
  schedOk : Bool
  indeces : List Nat
  pos : Nat
  label : Nat
deriving DecidableEq

/-- Decoder::early_update (the reference-tracking overload): run the
unconstrained beam search interleaved with match over positions 1..|code|,
then the end step with one more match; the returned position is one past the
last step run, and the label is the first tracked index inside the final
beam. -/
def earlyUpdateCore (d : Dictionary) (w : Weights) (code : Str) (bsz : Nat)
    (paths : List (List Node)) (sched : List (List Nat)) : EuResult :=
  let st0 : EuSt :=
    { beams := [[{ Node.init with word := some WordRef.sentinel }]],
      sched := sched, schedOk := true,
      indeces := List.replicate paths.length 0, pos := 1, succ := true }
  let st := euLoop d w code bsz paths code.length st0
  let st2 :=
    if st.succ then
      let dst := endStep d w false code [] bsz
        { beams := st.beams, sched := st.sched, ok := true, schedOk := st.schedOk }
      let r := matchStep dst.beams paths st.pos st.indeces
      { st with
        beams := r.1, sched := dst.sched, schedOk := dst.schedOk,
        indeces := r.2.1, pos := if r.2.2 then st.pos + 1 else st.pos,
        succ := r.2.2 }
    else st
  let lastB := (st2.beams.getLast?).getD []
  { beams := st2.beams, sched := st2.sched, schedOk := st2.schedOk,
    indeces := st2.indeces, pos := st2.pos,
    label := labelScan st2.indeces lastB.length }

/-- The softmax gradient of early_update: with expF modelling exp, each
final node gets delta −p, and the label additionally +1; prob is the label
probability. -/
def softmaxDeltas (expF : ℚ → ℚ) (lastB : List Node) (label : Nat) : ℚ × List ℚ :=
  let sum := (lastB.map (fun n => expF n.score)).sum
  let deltas := (withIdx lastB).map (fun q =>
    (if q.1 = label then 1 else 0) - expF q.2.score / sum)
  let prob := ((lastB[label]?).map (fun n => expF n.score / sum)).getD 0
  (prob, deltas)

/-- Result of the text overload of Decoder::early_update. -/
structure TrainResult where
  pos : Nat
  label : Nat
  prob : ℚ
  deltas : List ℚ
  beams : Beams
deriving DecidableEq

/-- Decoder::early_update (text overload): decode with the text constraint
to get the reference lattice, retrying once at doubled beam size; on
failure return position 0 without any further work.  Otherwise extract the
reference paths, run the tracking pass, and compute the softmax deltas over
the final beam. -/
def earlyUpdateTrain (d : Dictionary) (w : Weights) (expF : ℚ → ℚ)
    (code text : Str) (bsz : Nat)
    (sch1 sch2 sch3 : List (List Nat)) : TrainResult :=
  let d1 := decodeWith d w true code text bsz sch1
  let dst := if d1.ok then d1 else decodeWith d w true code text (bsz * 2) sch2
  if dst.ok then
    let paths := getPaths dst.beams
    let r := earlyUpdateCore d w code bsz paths sch3
    let lastB := (r.beams.getLast?).getD []
    let pd := softmaxDeltas expF lastB r.label
    { pos := r.pos, label := r.label, prob := pd.1, deltas := pd.2, beams := r.beams }
  else
    { pos := 0, label := 0, prob := 0, deltas := [], beams := [] }

/-- Local features along the prev chain, rear node first (the tail of the
Features iteration order). -/
def localsChain (bs : Beams) : Nat → Node → List (Str × ℚ)
  | 0, n => n.local_features
  | f + 1, n =>
    n.local_features ++
      (match n.prev with
       | none => []
       | some p =>
         match resolve bs p with
         | none => []
         | some m => localsChain bs f m)

/-- The Features view of a path: global features of the rear node first,
then the local features of every node walking back along prev. -/
def featuresOf (bs : Beams) (n : Node) : List (Str × ℚ) :=
  n.global_features ++ localsChain bs bs.length n

/-- Result of Decoder::update on one sample. -/
structure UpdResult where
  pos : Nat
  index : Nat
  prob : ℚ
  model : Weights
deriving DecidableEq

/-- Decoder::update (single sample): run early_update; when it reports a
positive position, apply Model::update pairwise over the final beam nodes
and their deltas; otherwise leave the model untouched. -/
def decoderUpdate (d : Dictionary) (w : Weights) (lr : ℚ) (expF : ℚ → ℚ)
    (code text : Str) (bsz : Nat)
    (sch1 sch2 sch3 : List (List Nat)) : UpdResult :=
  let r := earlyUpdateTrain d w expF code text bsz sch1 sch2 sch3
  if r.pos > 0 then
    let lastB := (r.beams.getLast?).getD []
    let w' := (lastB.zip r.deltas).foldl
      (fun acc q => updateW lr acc (featuresOf r.beams q.1) q.2) w
    { pos := r.pos, index := r.label, prob := r.prob, model := w' }
  else
    { pos := 0, index := 0, prob := 0, model := w }

/-! ### Concrete scenarios used by witnesses and counterexamples -/

/-- A dictionary before any load, with both length limits at the size_t
maximum (the defaults of the Dictionary constructor). -/
def limitless : Dictionary := ⟨2, SIZE_MAX, SIZE_MAX, 2, 0, 0, []⟩

/-- Dictionary of the single entry a → X. -/
def dictX : Dictionary := dictLoad limitless (str "a\tX\n")

/-- Dictionary mapping the same code ab to the two words Q and R. -/
def dictQR : Dictionary := dictLoad limitless (str "ab\tQ\nab\tR\n")

/-- Dictionary with a → W, b → W and ab → WW, so the code ab yields the
text WW along two distinct reference paths. -/
def dictWW : Dictionary := dictLoad limitless (str "a\tW\nb\tW\nab\tWW\n")

/-- Text-constrained decode of ab against WW (two reference paths, all
scores 0 under the empty model); every sort permutation is the identity. -/
def destWW : DecSt :=
  decodeWith dictWW [] true (str "ab") (str "WW") 5 [[0, 1], [0, 1], [0, 1]]

/-- The tracking pass for destWW in which the (tied) sort of step 2 puts
the two candidates in swapped order — a std::sort outcome the comparator
permits, since both scores are 0. -/
def coreWW : EuResult :=
  earlyUpdateCore dictWW [] (str "ab") 5 (getPaths destWW.beams)
    [[0, 1], [1, 0], [0, 1]]

/-- Text-constrained decode of ab against Q at beam size 1. -/
def destQR : DecSt :=
  decodeWith dictQR [] true (str "ab") (str "Q") 1 [[0], [0], [0]]

/-- The tracking pass for destQR in which the tied sort of step 2 keeps the
R reduction, so the Q reference falls out of the beam and is force-emplaced
with its prev rewired to the in-beam shift node. -/
def coreQR : EuResult :=
  earlyUpdateCore dictQR [] (str "ab") 1 (getPaths destQR.beams)
    [[0], [1, 0]]

/-- Unconstrained decode of ab against dictQR at beam size 1 with identity
sort outcomes: the earlier-emplaced tied candidate Q survives. -/
def runQRid : DecSt :=
  decodeWith dictQR [] false (str "ab") [] 1 [[0], [0, 1], [0]]

/-- The same decode with the equally valid swapped sort outcome at step 2:
the later-emplaced tied candidate R survives instead. -/
def runQRswap : DecSt :=
  decodeWith dictQR [] false (str "ab") [] 1 [[0], [1, 0], [0]]

/-- Unconstrained decode of a against dictX: one reduction at position 1
whose code_pos equals the position. -/
def runX : DecSt := decodeWith dictX [] false (str "a") [] 1 [[0], [0]]

/-- Maximum of a list of lengths, 0 when empty. -/
def maxLen (l : List Nat) : Nat := l.foldr max 0

/-- Well-formedness of one node sitting at step s of a lattice: its prev
pointer stays inside the same lattice, points to an earlier step and a real
offset; its scores satisfy the compute_score equations with respect to the
stored beams; and its prev_word field satisfies the documented invariant
(prev itself when prev carries a word, else the prev_word of prev). -/
def NodeWF (w : Weights) (t : Bool) (bs : Beams) (s : Nat) (n : Node) : Prop :=
  (∀ p, n.prev = some p →
    p.ref = t ∧ p.step < s ∧ p.idx < (bs.getD p.step []).length) ∧
  n.local_score =
    (((n.prev.bind (resolve bs)).map Node.local_score).getD 0) +
      dotW w n.local_features ∧
  n.score = n.local_score + dotW w n.global_features ∧
  (∀ p m, n.prev = some p → resolve bs p = some m →
    n.prev_word = if m.word.isSome then some p else m.prev_word)

/-- Well-formedness of a whole lattice: every node of every beam. -/
def BeamsWF (w : Weights) (t : Bool) (bs : Beams) : Prop :=
  ∀ s : Nat, ∀ n ∈ bs.getD s [], NodeWF w t bs s n

/-! ### Lemmas about the weight map -/

theorem findWeight_append (w1 w2 : Weights) (k : Str) :
    findWeight (w1 ++ w2) k = (findWeight w1 k).or (findWeight w2 k) := by
  unfold findWeight
  rw [List.find?_append]
  cases w1.find? (fun p => decide (p.1 = k)) <;> simp

theorem findWeight_emplaceW (w : Weights) (k' : Str) (v : ℚ) (k : Str) :
    findWeight (emplaceW w k' v) k =
      (findWeight w k).or (if k' = k then some v else none) := by
  unfold emplaceW
  by_cases h : (w.find? (fun p => decide (p.1 = k'))).isSome
  · simp only [h, if_true]
    by_cases hk : k' = k
    · subst hk
      have : (findWeight w k').isSome := by
        unfold findWeight
        cases hf : w.find? (fun p => decide (p.1 = k')) with
        | none => rw [hf] at h; simp at h
        | some p => simp
      cases hfw : findWeight w k' with
      | none => rw [hfw] at this; simp at this
      | some q => simp
    · simp [hk, Option.or_none]
  · simp only [h, Bool.false_eq_true, if_false]
    rw [findWeight_append]
    congr 1
    unfold findWeight
    by_cases hk : k' = k <;> simp [hk, List.find?]

theorem findWeight_foldl_emplaceW (es : List (Str × ℚ)) :
    ∀ (acc : Weights) (k : Str),
      findWeight (es.foldl (fun a e => emplaceW a e.1 e.2) acc) k =
        (findWeight acc k).or ((es.find? (fun e => decide (e.1 = k))).map (·.2)) := by
  induction es with
  | nil => intro acc k; simp
  | cons e es ih =>
    intro acc k
    rw [List.foldl_cons, ih, findWeight_emplaceW]
    by_cases h : e.1 = k
    · rw [List.find?_cons_of_pos _ (by simp [h])]
      simp [h, Option.or_assoc]
    · rw [List.find?_cons_of_neg _ (by simp [h])]
      simp [h, Option.or_none]

/-- C6 (amended): Model::load discards all previously held weights (the old
table does not influence the result) and stores one weight per parsed line;
when the same feature key occurs on several lines, the weight kept is the
one from the FIRST such line, because the loop inserts with map emplace,
which never overwrites an existing key. -/
theorem c6_model_load_first_write_wins (old : Weights) (s : Str) (k : Str) :
    findWeight (loadModel old s) k =
      (((splitSep '\n' s).filterMap parseModelLine).find?
        (fun e => decide (e.1 = k))).map (·.2) := by
  unfold loadModel
  rw [findWeight_foldl_emplaceW]
  simp [findWeight]

/-- C6 counterexample: a stream whose two lines both carry the key a, with
weights 1 and 2.  After load the stored weight is 1, the one from the first
line; the claim predicts 2, from the last line. -/
theorem c6_counterexample :
    findWeight (loadModel [] (str "a\t1\na\t2\n")) (str "a") = some 1 ∧
    ((1 : ℚ) = 2 → False) := by
  constructor
  · decide
  · decide

/-- C9: Metrics::set inserts the pair only when the key is absent (a second
set on a present key leaves the stored value unchanged, and a set on another
key does not touch it), and get of a key never set — none having been
inserted since the empty store — returns NAN, modelled as none. -/
theorem c9_metrics_emplace_get (m : Metrics) (k k2 : Str) (v v2 : ℚ) :
    ((m.get k).isSome = true → (m.set k v2).get k = m.get k) ∧
    (m.get k = none → (m.set k v).get k = some v) ∧
    (k2 ≠ k → (m.set k2 v2).get k = m.get k) ∧
    Metrics.empty.get k = none := by
  refine ⟨?_, ?_, ?_, rfl⟩
  · intro h
    unfold Metrics.get Metrics.set at *
    have : (m.data.find? (fun p => decide (p.1 = k))).isSome := by
      cases hf : m.data.find? (fun p => decide (p.1 = k)) with
      | none => rw [hf] at h; simp at h
      | some p => simp
    simp [this]
  · intro h
    unfold Metrics.get Metrics.set at *
    cases hf : m.data.find? (fun p => decide (p.1 = k)) with
    | none =>
      simp only [hf, Option.isSome_none, Bool.false_eq_true, if_false]
      rw [List.find?_append, hf]
      simp [List.find?]
    | some p => rw [hf] at h; simp at h
  · intro hne
    unfold Metrics.get Metrics.set
    by_cases hf : (m.data.find? (fun p => decide (p.1 = k2))).isSome
    · simp [hf]
    · simp only [hf, Bool.false_eq_true, if_false]
      rw [List.find?_append]
      cases hg : m.data.find? (fun p => decide (p.1 = k)) with
      | none => simp [List.find?, hne]
      | some p => simp

/-- C9 witness: on a concrete store, a second set of the key count leaves
the first value in place, and get of a key never set returns none. -/
theorem c9_witness :
    ((Metrics.empty.set (str "count") 3).set (str "count") 5).get (str "count") =
        some 3 ∧
    Metrics.empty.get (str "loss") = none := by
  have h1 := (c9_metrics_emplace_get (Metrics.empty.set (str "count") 3)
    (str "count") (str "x") 3 5).1
  have h2 := (c9_metrics_emplace_get Metrics.empty (str "loss") (str "x") 0 0).2.2.2
  exact ⟨by rw [h1 (by decide)]; decide, h2⟩

/-- One load-loop iteration never changes the configured limits. -/
theorem dictLoadLine_limits (d : Dictionary) (line : Str) :
    (dictLoadLine d line).code_len_limit = d.code_len_limit ∧
    (dictLoadLine d line).text_len_limit = d.text_len_limit := by
  unfold dictLoadLine
  constructor <;> (split <;> split <;> rfl)

/-- Acceptance reads only the limits, so two states with equal limits
accept the same lines. -/
theorem acceptedLines_congr (d d' : Dictionary)
    (hc : d'.code_len_limit = d.code_len_limit)
    (ht : d'.text_len_limit = d.text_len_limit) (lines : List Str) :
    acceptedLines d' lines = acceptedLines d lines := by
  unfold acceptedLines dictAccepts
  rw [hc, ht]

/-- The load-loop body, written with pair projections. -/
theorem dictLoadLine_eq (d : Dictionary) (line : Str) :
    dictLoadLine d line =
      if dictAccepts d (parseTwoTokens line).1 (parseTwoTokens line).2 then
        { d with
          data := d.data ++ [⟨(parseTwoTokens line).1, (parseTwoTokens line).2⟩],
          max_id := d.max_id + 1,
          max_code_len := max d.max_code_len (parseTwoTokens line).1.length,
          max_text_len := max d.max_text_len (parseTwoTokens line).2.length }
      else d := rfl

/-- Cons equation for the accepted entries of a line list. -/
theorem acceptedLines_cons (d : Dictionary) (line : Str) (rest : List Str) :
    acceptedLines d (line :: rest) =
      (if dictAccepts d (parseTwoTokens line).1 (parseTwoTokens line).2 then
        [(⟨(parseTwoTokens line).1, (parseTwoTokens line).2⟩ : Word)]
      else []) ++ acceptedLines d rest := by
  rcases hp : parseTwoTokens line with ⟨c, t⟩
  unfold acceptedLines
  rw [List.filterMap_cons]
  simp only [hp]
  by_cases h : dictAccepts d c t = true
  · simp [h]
  · simp [h]

/-- The Dictionary::load loop, folded over any starting state: limits and
min_id are untouched, accepted entries are appended in order, and the
recorded maxima combine the starting maxima with the maxima of the accepted
entries. -/
theorem dictLoad_foldl_spec (lines : List Str) :
    ∀ d : Dictionary,
      (lines.foldl dictLoadLine d).min_id = d.min_id ∧
      (lines.foldl dictLoadLine d).code_len_limit = d.code_len_limit ∧
      (lines.foldl dictLoadLine d).text_len_limit = d.text_len_limit ∧
      (lines.foldl dictLoadLine d).data = d.data ++ acceptedLines d lines ∧
      (lines.foldl dictLoadLine d).max_code_len =
        max d.max_code_len
          (maxLen ((acceptedLines d lines).map (fun x => x.code.length))) ∧
      (lines.foldl dictLoadLine d).max_text_len =
        max d.max_text_len
          (maxLen ((acceptedLines d lines).map (fun x => x.text.length))) := by
  induction lines with
  | nil =>
    intro d
    simp [acceptedLines, maxLen]
  | cons line rest ih =>
    intro d
    rw [List.foldl_cons, acceptedLines_cons]
    obtain ⟨h1, h2, h3, h4, h5, h6⟩ := ih (dictLoadLine d line)
    rw [acceptedLines_congr d (dictLoadLine d line) (dictLoadLine_limits d line).1
      (dictLoadLine_limits d line).2 rest] at h4 h5 h6
    by_cases hacc : dictAccepts d (parseTwoTokens line).1 (parseTwoTokens line).2 = true
    · rw [dictLoadLine_eq, if_pos hacc] at h1 h2 h3 h4 h5 h6
      rw [dictLoadLine_eq, if_pos hacc, if_pos hacc]
      refine ⟨h1, h2, h3, ?_, ?_, ?_⟩
      · rw [h4]
        simp
      · rw [h5]
        simp only [List.singleton_append, List.map_cons, maxLen, List.foldr_cons]
        exact max_assoc _ _ _
      · rw [h6]
        simp only [List.singleton_append, List.map_cons, maxLen, List.foldr_cons]
        exact max_assoc _ _ _
    · rw [dictLoadLine_eq, if_neg hacc] at h1 h2 h3 h4 h5 h6
      rw [dictLoadLine_eq, if_neg hacc, if_neg hacc]
      simpa using ⟨h1, h2, h3, h4, h5, h6⟩

/-- C10: Dictionary::load first clears the table and resets the recorded
maxima, so for every prior state the dictionary afterwards holds exactly
the accepted entries of the stream, and max_code_len / max_text_len are the
maxima of the code and text lengths over those entries alone (the empty
fold gives 0 for a stream with no accepted entry). -/
theorem c10_dictionary_load_reset (d : Dictionary) (s : Str) :
    (dictLoad d s).data = dictAccepted d s ∧
    (dictLoad d s).max_code_len =
      maxLen ((dictAccepted d s).map (fun x => x.code.length)) ∧
    (dictLoad d s).max_text_len =
      maxLen ((dictAccepted d s).map (fun x => x.text.length)) := by
  unfold dictLoad dictAccepted
  obtain ⟨_, _, _, h4, h5, h6⟩ := dictLoad_foldl_spec (splitSep '\n' s)
    { d with data := [], max_id := d.min_id, max_code_len := 0, max_text_len := 0 }
  have hsame :
      acceptedLines
        { d with
          data := [], max_id := d.min_id,
          max_code_len := 0, max_text_len := 0 } (splitSep '\n' s) =
      acceptedLines d (splitSep '\n' s) := by
    unfold acceptedLines dictAccepts
    rfl
  rw [hsame] at h4 h5 h6
  refine ⟨by rw [h4]; simp, by rw [h5]; simp, by rw [h6]; simp⟩

/-- Building the local features never touches the global features, the
cursors or the word of a node. -/
theorem makeFeatures_parts (d : Dictionary) (bs : Beams) (pos : Nat) (n : Node) :
    (makeFeatures d bs pos n).global_features =
      n.global_features ++
        [(str "code_len:" ++ printNat (pos - n.code_pos), 1)] ∧
    (makeFeatures d bs pos n).code_pos = n.code_pos ∧
    (makeFeatures d bs pos n).text_pos = n.text_pos ∧
    (makeFeatures d bs pos n).word = n.word ∧
    (makeFeatures d bs pos n).prev = n.prev ∧
    (makeFeatures d bs pos n).prev_word = n.prev_word ∧
    (makeFeatures d bs pos n).local_score = n.local_score ∧
    (makeFeatures d bs pos n).score = n.score := by
  obtain ⟨prev, cp, tp, word, pw, lf, gf, ls, sc⟩ := n
  unfold makeFeatures
  cases word <;> cases pw <;> dsimp only [] <;> try split
  all_goals exact ⟨rfl, rfl, rfl, rfl, rfl, rfl, rfl, rfl⟩

/-- C3 (amended): make_features appends the global feature
(code_len:(pos − code_pos), 1) to every node it processes, unconditionally —
also when code_pos equals pos, in which case the node receives the feature
code_len:0 rather than no global feature. -/
theorem c3_make_features_code_len (d : Dictionary) (bs : Beams) (pos : Nat)
    (n : Node) :
    (makeFeatures d bs pos n).global_features =
      n.global_features ++
        [(str "code_len:" ++ printNat (pos - n.code_pos), 1)] :=
  (makeFeatures_parts d bs pos n).1

/-- C3 counterexample: in the decode of the code a against the dictionary
entry a → X, the reduction node of step 1 sits at position pos = 1 with
code_pos = 1 (no unmatched trailing code), and still carries the global
feature (code_len:0, 1); the claim predicts it receives no global feature. -/
theorem c3_counterexample :
    runX.ok = true ∧ runX.schedOk = true ∧
    (runX.beams.getD 1 []).map (fun n => (n.code_pos, n.word, n.global_features)) =
      [(1, some (WordRef.entry 0), [(str "code_len:0", 1)])] := by
  refine ⟨by decide, by decide, by decide⟩

/-! ### Round-trip of the exact number format -/

theorem digitVal_digitChar {d : Nat} (h : d < 10) : digitVal (digitChar d) = d := by
  interval_cases d <;> decide

theorem isDigitChar_digitChar {d : Nat} (h : d < 10) :
    isDigitChar (digitChar d) = true := by
  interval_cases d <;> decide

theorem digitsRev_eq {fuel n : Nat} (h : n ≤ fuel) :
    digitsRev fuel n = Nat.digits 10 n := by
  induction fuel generalizing n with
  | zero =>
    have : n = 0 := Nat.le_zero.mp h
    subst this
    simp [digitsRev]
  | succ f ih =>
    unfold digitsRev
    by_cases hn : n = 0
    · simp [hn]
    · rw [if_neg hn,
        Nat.digits_def' (b := 10) (by norm_num) (Nat.pos_of_ne_zero hn)]
      congr 1
      apply ih
      have := Nat.div_lt_self (Nat.pos_of_ne_zero hn) (by norm_num : 1 < 10)
      omega

theorem printNat_eq (n : Nat) :
    printNat n = if n = 0 then ['0'] else ((Nat.digits 10 n).reverse).map digitChar := by
  unfold printNat
  rw [digitsRev_eq (le_refl n)]

theorem printNat_ne_nil (n : Nat) : printNat n ≠ [] := by
  rw [printNat_eq]
  split
  · simp
  · next h =>
    have hd : Nat.digits 10 n ≠ [] := Nat.digits_ne_nil_iff_ne_zero.mpr h
    simp [hd]

theorem printNat_all_digits (n : Nat) :
    ∀ c ∈ printNat n, isDigitChar c = true := by
  intro c hc
  rw [printNat_eq] at hc
  split at hc
  · simp at hc
    rw [hc]
    decide
  · simp only [List.mem_map, List.mem_reverse] at hc
    obtain ⟨d, hd, rfl⟩ := hc
    exact isDigitChar_digitChar (Nat.digits_lt_base (by norm_num) hd)

theorem parseNat_printNat (n : Nat) : parseNat (printNat n) = some n := by
  unfold parseNat
  rw [if_pos]
  · congr 1
    by_cases h : n = 0
    · subst h
      decide
    · rw [printNat_eq, if_neg h]
      rw [List.map_map, List.map_reverse, List.reverse_reverse]
      have hmap : (Nat.digits 10 n).map (digitVal ∘ digitChar) =
          (Nat.digits 10 n).map id := by
        apply List.map_congr_left
        intro d hd
        exact digitVal_digitChar (Nat.digits_lt_base (by norm_num) hd)
      rw [hmap, List.map_id, Nat.ofDigits_digits]
  · rw [Bool.and_eq_true]
    constructor
    · simp [printNat_ne_nil n]
    · rw [List.all_eq_true]
      intro c hc
      exact printNat_all_digits n c hc

theorem splitSep_cons (sep c : Char) (cs : Str) :
    splitSep sep (c :: cs) =
      if c = sep then [] :: splitSep sep cs
      else
        match splitSep sep cs with
        | [] => [[c]]
        | t :: ts => (c :: t) :: ts := rfl

theorem splitSep_sepFree {sep : Char} {l : Str} (h : ∀ c ∈ l, c ≠ sep) :
    splitSep sep l = [l] := by
  induction l with
  | nil => rfl
  | cons c cs ih =>
    rw [splitSep_cons, if_neg (h c (List.mem_cons_self _ _)),
      ih (fun x hx => h x (List.mem_cons_of_mem _ hx))]

theorem splitSep_append {sep : Char} {l : Str} (rest : Str)
    (h : ∀ c ∈ l, c ≠ sep) :
    splitSep sep (l ++ sep :: rest) = l :: splitSep sep rest := by
  induction l with
  | nil =>
    rw [List.nil_append, splitSep_cons, if_pos rfl]
  | cons c cs ih =>
    have hs : splitSep sep (cs ++ sep :: rest) = cs :: splitSep sep rest :=
      ih (fun x hx => h x (List.mem_cons_of_mem _ hx))
    rw [List.cons_append, splitSep_cons, if_neg (h c (List.mem_cons_self _ _)), hs]

theorem splitWsAux_cons (c : Char) (cs acc : Str) :
    splitWsAux (c :: cs) acc =
      if isWsChar c then
        (if acc = [] then splitWsAux cs [] else acc.reverse :: splitWsAux cs [])
      else splitWsAux cs (c :: acc) := rfl

theorem splitWsAux_nil (acc : Str) :
    splitWsAux [] acc = if acc = [] then [] else [acc.reverse] := rfl

theorem splitWsAux_wsFree {t : Str} (h : ∀ c ∈ t, isWsChar c = false) :
    ∀ (r acc : Str), splitWsAux (t ++ r) acc = splitWsAux r (t.reverse ++ acc) := by
  induction t with
  | nil =>
    intro r acc
    simp
  | cons c cs ih =>
    intro r acc
    rw [List.cons_append, splitWsAux_cons, h c (List.mem_cons_self _ _)]
    simp only [Bool.false_eq_true, if_false]
    rw [ih (fun x hx => h x (List.mem_cons_of_mem _ hx)) r (c :: acc)]
    congr 1
    simp

theorem splitWs_wsFree {t : Str} (hne : t ≠ [])
    (h : ∀ c ∈ t, isWsChar c = false) : splitWs t = [t] := by
  unfold splitWs
  have haux := splitWsAux_wsFree h [] []
  rw [List.append_nil] at haux
  rw [haux, splitWsAux_nil, if_neg (by simpa using hne)]
  simp

theorem splitWs_key_tab_tok {k tok : Str} (hk : k ≠ [])
    (hkw : ∀ c ∈ k, isWsChar c = false) (ht : tok ≠ [])
    (htw : ∀ c ∈ tok, isWsChar c = false) :
    splitWs (k ++ '\t' :: tok) = [k, tok] := by
  unfold splitWs
  rw [splitWsAux_wsFree hkw ('\t' :: tok) []]
  rw [List.append_nil, splitWsAux_cons]
  rw [show isWsChar '\t' = true from rfl]
  simp only [if_true]
  rw [if_neg (by simpa using hk), List.reverse_reverse]
  have htok : splitWsAux tok [] = [tok] := splitWs_wsFree ht htw
  rw [htok]

/-- A digit character is not whitespace and not a newline. -/
theorem digit_not_ws {c : Char} (hd : isDigitChar c = true) :
    isWsChar c = false ∧ c ≠ '\n' := by
  unfold isDigitChar at hd
  simp only [Bool.and_eq_true, decide_eq_true_eq] at hd
  constructor
  · unfold isWsChar
    simp only [Bool.or_eq_false_iff, decide_eq_false_iff_not]
    refine ⟨⟨⟨⟨⟨?_, ?_⟩, ?_⟩, ?_⟩, ?_⟩, ?_⟩ <;>
      (intro hx; rw [hx] at hd; revert hd; decide)
  · intro hx
    rw [hx] at hd
    revert hd
    decide

/-! ### Well-formedness of decoded lattices -/

theorem getD_append_left {bs : Beams} {b : List Node} {s : Nat}
    (h : s < bs.length) : (bs ++ [b]).getD s [] = bs.getD s [] := by
  rw [List.getD_eq_getElem?_getD, List.getD_eq_getElem?_getD,
    List.getElem?_append_left h]

theorem getD_append_last (bs : Beams) (b : List Node) :
    (bs ++ [b]).getD bs.length [] = b := by
  rw [List.getD_eq_getElem?_getD, List.getElem?_append_right (le_refl _)]
  simp

theorem getD_pos_of_mem {bs : Beams} {s : Nat} {n : Node}
    (h : n ∈ bs.getD s []) : s < bs.length := by
  by_contra hs
  rw [List.getD_eq_getElem?_getD, List.getElem?_eq_none (by omega)] at h
  simp at h

theorem resolve_append {bs : Beams} {b : List Node} {p : Ptr}
    (h : p.step < bs.length) : resolve (bs ++ [b]) p = resolve bs p := by
  unfold resolve
  rw [List.getElem?_append_left h]

theorem resolve_of_getD {bs : Beams} {p : Ptr}
    (hs : p.step < bs.length) (hi : p.idx < (bs.getD p.step []).length) :
    ∃ m, resolve bs p = some m ∧ m ∈ bs.getD p.step [] ∧
      (bs.getD p.step [])[p.idx]? = some m := by
  unfold resolve
  rw [List.getD_eq_getElem?_getD, List.getElem?_eq_getElem hs] at hi ⊢
  simp only [Option.getD_some] at hi
  rcases List.getElem?_eq_some_iff.mpr ⟨hi, rfl⟩ with h
  refine ⟨(bs[p.step])[p.idx], ?_, ?_, ?_⟩
  · simp [h]
  · simp only [Option.getD_some]
    exact List.getElem_mem _
  · simp only [Option.getD_some]
    simpa using h

theorem mem_withIdxFrom {α : Type} {l : List α} :
    ∀ {i : Nat} {q : Nat × α}, q ∈ withIdxFrom i l →
      ∃ j, j < l.length ∧ q.1 = i + j ∧ l[j]? = some q.2 := by
  induction l with
  | nil => intro i q h; simp [withIdxFrom] at h
  | cons a t ih =>
    intro i q h
    rcases List.mem_cons.mp h with h1 | h1
    · exact ⟨0, by simp, by simp [h1], by simp [h1]⟩
    · obtain ⟨j, hj, hq1, hq2⟩ := ih h1
      exact ⟨j + 1, by simpa using hj, by omega, by simpa using hq2⟩

theorem mem_withIdx {α : Type} {l : List α} {q : Nat × α}
    (h : q ∈ withIdx l) : q.1 < l.length ∧ l[q.1]? = some q.2 := by
  obtain ⟨j, hj, hq1, hq2⟩ := mem_withIdxFrom h
  have : q.1 = j := by omega
  rw [this]
  exact ⟨hj, hq2⟩

/-- Scoring rewrites exactly the two score fields, from the stored prev. -/
theorem computeScore_parts (w : Weights) (bs : Beams) (n : Node) :
    (computeScore w bs n).prev = n.prev ∧
    (computeScore w bs n).code_pos = n.code_pos ∧
    (computeScore w bs n).text_pos = n.text_pos ∧
    (computeScore w bs n).word = n.word ∧
    (computeScore w bs n).prev_word = n.prev_word ∧
    (computeScore w bs n).local_features = n.local_features ∧
    (computeScore w bs n).global_features = n.global_features ∧
    (computeScore w bs n).local_score =
      (((n.prev.bind (resolve bs)).map Node.local_score).getD 0) +
        dotW w n.local_features ∧
    (computeScore w bs n).score =
      (computeScore w bs n).local_score + dotW w n.global_features := by
  unfold computeScore
  refine ⟨rfl, rfl, rfl, rfl, rfl, rfl, rfl, ?_, rfl⟩
  cases n.prev <;> rfl

/-- A node well-formed at a step below the old length stays well-formed
when one more beam is appended. -/
theorem NodeWF_snoc {w : Weights} {t : Bool} {bs : Beams} {b : List Node}
    {s : Nat} {n : Node} (hs : s ≤ bs.length) (hwf : NodeWF w t bs s n) :
    NodeWF w t (bs ++ [b]) s n := by
  obtain ⟨hp, hls, hsc, hpw⟩ := hwf
  have hres : ∀ p, n.prev = some p → resolve (bs ++ [b]) p = resolve bs p := by
    intro p hp0
    exact resolve_append (lt_of_lt_of_le (hp p hp0).2.1 hs)
  refine ⟨?_, ?_, hsc, ?_⟩
  · intro p hp0
    obtain ⟨h1, h2, h3⟩ := hp p hp0
    exact ⟨h1, h2, by rwa [getD_append_left (lt_of_lt_of_le h2 hs)]⟩
  · cases hpn : n.prev with
    | none => rw [hpn] at hls; exact hls
    | some p =>
      rw [hpn] at hls
      simp only [Option.some_bind] at hls ⊢
      rw [hres p hpn]
      exact hls
  · intro p m hp0 hm
    rw [hres p hp0] at hm
    exact hpw p m hp0 hm

/-- Appending a beam of nodes well-formed at the new step preserves
lattice well-formedness. -/
theorem BeamsWF_snoc {w : Weights} {t : Bool} {bs : Beams} {b : List Node}
    (hwf : BeamsWF w t bs)
    (hb : ∀ n ∈ b, NodeWF w t (bs ++ [b]) bs.length n) :
    BeamsWF w t (bs ++ [b]) := by
  intro s n hmem
  have hslen : s < bs.length + 1 := by
    have := getD_pos_of_mem hmem
    simpa using this
  by_cases hcase : s < bs.length
  · rw [getD_append_left hcase] at hmem
    exact NodeWF_snoc (le_of_lt hcase) (hwf s n hmem)
  · have hseq : s = bs.length := by omega
    subst hseq
    rw [getD_append_last] at hmem
    exact hb n hmem

theorem getLast_getD (bs : Beams) :
    (bs.getLast?).getD [] = bs.getD (bs.length - 1) [] := by
  rw [List.getLast?_eq_getElem?, List.getD_eq_getElem?_getD]

theorem length_pos_of_ne_nil {bs : Beams} (hne : bs ≠ []) :
    bs.length - 1 < bs.length := by
  have : bs.length ≠ 0 := fun h => hne (List.length_eq_zero.mp h)
  omega

theorem resolve_last {bs : Beams} (hne : bs ≠ []) (r : Bool) {k : Nat}
    {pn : Node} (hk : ((bs.getLast?).getD [])[k]? = some pn) :
    resolve bs ⟨r, bs.length - 1, k⟩ = some pn := by
  unfold resolve
  have hlen := length_pos_of_ne_nil hne
  rw [List.getLast?_eq_getElem?, List.getElem?_eq_getElem hlen] at hk
  dsimp only
  rw [List.getElem?_eq_getElem hlen]
  simpa using hk

/-- Every candidate node the advance and end steps build — a base node with
prev pointing at slot k of the last beam and the documented prev_word rule,
then features, then scores — is well-formed at the new step. -/
theorem built_node_WF {w : Weights} {t : Bool} {bs : Beams} (hne : bs ≠ [])
    {k : Nat} {pn : Node} (hk : ((bs.getLast?).getD [])[k]? = some pn)
    (d : Dictionary) (pos : Nat) (base : Node)
    (hprev : base.prev = some ⟨t, bs.length - 1, k⟩)
    (hpw : base.prev_word =
      if pn.word.isSome then some ⟨t, bs.length - 1, k⟩ else pn.prev_word) :
    NodeWF w t bs bs.length (computeScore w bs (makeFeatures d bs pos base)) := by
  obtain ⟨g1, g2, g3, g4, g5, g6, g7, g8⟩ := makeFeatures_parts d bs pos base
  obtain ⟨c1, c2, c3, c4, c5, c6, c7, c8, c9⟩ :=
    computeScore_parts w bs (makeFeatures d bs pos base)
  have hplen := length_pos_of_ne_nil hne
  have hkl : k < (bs.getD (bs.length - 1) []).length := by
    rw [← getLast_getD]
    exact (List.getElem?_eq_some_iff.mp hk).1
  refine ⟨?_, ?_, ?_, ?_⟩
  · intro p hp
    rw [c1, g5, hprev] at hp
    injection hp with hp
    subst hp
    exact ⟨rfl, hplen, hkl⟩
  · rw [c1, c6]
    exact c8
  · rw [c7]
    exact c9
  · intro p m hp hm
    rw [c1, g5, hprev] at hp
    injection hp with hp
    subst hp
    rw [resolve_last hne t hk] at hm
    injection hm with hm
    subst hm
    rw [c5, g6, hpw]

theorem advanceCands_WF {d : Dictionary} {w : Weights} {t : Bool}
    {code text : Str} {pos : Nat} {bs : Beams} (hne : bs ≠ []) :
    ∀ n ∈ advanceCands d w t code text pos bs, NodeWF w t bs bs.length n := by
  intro n hn
  unfold advanceCands at hn
  rw [List.mem_flatMap] at hn
  obtain ⟨q, hq, hn⟩ := hn
  obtain ⟨hk, hkq⟩ := mem_withIdx hq
  dsimp only at hn
  rcases List.mem_append.mp hn with h | h
  · by_cases hcs : canShift d q.2 code pos = true
    · rw [if_pos hcs] at h
      rcases List.mem_singleton.mp h with rfl
      exact built_node_WF hne hkq d pos _ rfl rfl
    · rw [if_neg hcs] at h
      simp at h
  · rw [List.mem_filterMap] at h
    obtain ⟨ew, _, hsome⟩ := h
    by_cases hcr : canReduce q.2 text ew.2 = true
    · rw [if_pos hcr] at hsome
      injection hsome with hsome
      subst hsome
      exact built_node_WF hne hkq d pos _ rfl rfl
    · rw [if_neg hcr] at hsome
      cases hsome

theorem endCands_WF {d : Dictionary} {w : Weights} {t : Bool}
    {code text : Str} {bs : Beams} (hne : bs ≠ []) :
    ∀ n ∈ endCands d w t code text bs, NodeWF w t bs bs.length n := by
  intro n hn
  unfold endCands at hn
  rw [List.mem_filterMap] at hn
  obtain ⟨q, hq, hsome⟩ := hn
  obtain ⟨hk, hkq⟩ := mem_withIdx hq
  dsimp only at hsome
  by_cases hc : (q.2.code_pos = code.length &&
      (text = [] || decide (q.2.text_pos = text.length))) = true
  · rw [if_pos hc] at hsome
    injection hsome with hsome
    subst hsome
    exact built_node_WF hne hkq d code.length _ rfl rfl
  · rw [if_neg hc] at hsome
    cases hsome

theorem applyPerm_subset {p : List Nat} {beam : List Node} :
    ∀ n ∈ applyPerm p beam, n ∈ beam := by
  intro n hn
  unfold applyPerm at hn
  rw [List.mem_filterMap] at hn
  obtain ⟨i, _, hsome⟩ := hn
  exact List.getElem?_mem hsome

theorem topkStep_mem {bsz : Nat} {beam : List Node} {st : DecSt} :
    ∀ n ∈ (topkStep bsz beam st).1, n ∈ beam := by
  intro n hn
  unfold topkStep at hn
  cases hs : st.sched with
  | nil =>
    rw [hs] at hn
    exact applyPerm_subset n (List.mem_of_mem_take hn)
  | cons q rest =>
    rw [hs] at hn
    exact applyPerm_subset n (List.mem_of_mem_take hn)

theorem advanceStep_beams (d : Dictionary) (w : Weights) (t : Bool)
    (code text : Str) (pos bsz : Nat) (st : DecSt) :
    ∃ nb, (advanceStep d w t code text pos bsz st).beams = st.beams ++ [nb] ∧
      ∀ n ∈ nb, n ∈ advanceCands d w t code text pos st.beams := by
  unfold advanceStep
  by_cases h : advanceCands d w t code text pos st.beams = []
  · rw [if_pos h]
    exact ⟨[], rfl, by simp⟩
  · rw [if_neg h]
    refine ⟨(topkStep bsz (advanceCands d w t code text pos st.beams) st).1, rfl, ?_⟩
    intro n hn
    exact topkStep_mem n hn

theorem endStep_beams (d : Dictionary) (w : Weights) (t : Bool)
    (code text : Str) (bsz : Nat) (st : DecSt) :
    ∃ nb, (endStep d w t code text bsz st).beams = st.beams ++ [nb] ∧
      ∀ n ∈ nb, n ∈ endCands d w t code text st.beams := by
  unfold endStep
  by_cases h : endCands d w t code text st.beams = []
  · rw [if_pos h]
    exact ⟨[], rfl, by simp⟩
  · rw [if_neg h]
    refine ⟨(topkStep bsz (endCands d w t code text st.beams) st).1, rfl, ?_⟩
    intro n hn
    exact topkStep_mem n hn

theorem advanceStep_WF {d : Dictionary} {w : Weights} {t : Bool}
    {code text : Str} {pos bsz : Nat} {st : DecSt}
    (hne : st.beams ≠ []) (hwf : BeamsWF w t st.beams) :
    (advanceStep d w t code text pos bsz st).beams ≠ [] ∧
    BeamsWF w t (advanceStep d w t code text pos bsz st).beams := by
  obtain ⟨nb, heq, hsub⟩ := advanceStep_beams d w t code text pos bsz st
  rw [heq]
  refine ⟨by simp, ?_⟩
  apply BeamsWF_snoc hwf
  intro n hm
  exact NodeWF_snoc (le_refl _) (advanceCands_WF hne n (hsub n hm))

theorem endStep_WF {d : Dictionary} {w : Weights} {t : Bool}
    {code text : Str} {bsz : Nat} {st : DecSt}
    (hne : st.beams ≠ []) (hwf : BeamsWF w t st.beams) :
    (endStep d w t code text bsz st).beams ≠ [] ∧
    BeamsWF w t (endStep d w t code text bsz st).beams := by
  obtain ⟨nb, heq, hsub⟩ := endStep_beams d w t code text bsz st
  rw [heq]
  refine ⟨by simp, ?_⟩
  apply BeamsWF_snoc hwf
  intro n hm
  exact NodeWF_snoc (le_refl _) (endCands_WF hne n (hsub n hm))

theorem decodeLoop_WF {d : Dictionary} {w : Weights} {t : Bool}
    {code text : Str} {bsz : Nat} :
    ∀ (fuel pos : Nat) (st : DecSt), st.beams ≠ [] → BeamsWF w t st.beams →
      (decodeLoop d w t code text bsz fuel pos st).beams ≠ [] ∧
      BeamsWF w t (decodeLoop d w t code text bsz fuel pos st).beams := by
  intro fuel
  induction fuel with
  | zero => intro pos st hne hwf; exact ⟨hne, hwf⟩
  | succ f ih =>
    intro pos st hne hwf
    unfold decodeLoop
    by_cases hok : st.ok = true
    · rw [if_pos hok]
      obtain ⟨h1, h2⟩ := @advanceStep_WF d w t code text pos bsz st hne hwf
      exact ih (pos + 1) _ h1 h2
    · rw [if_neg hok]
      exact ⟨hne, hwf⟩

theorem beginState_WF (w : Weights) (t : Bool) (sched : List (List Nat)) :
    (beginState sched).beams ≠ [] ∧ BeamsWF w t (beginState sched).beams := by
  refine ⟨by simp [beginState], ?_⟩
  intro s n hmem
  have hs : s < 1 := by
    have := getD_pos_of_mem hmem
    simpa [beginState] using this
  have hs0 : s = 0 := by omega
  subst hs0
  have hn : n = { Node.init with word := some WordRef.sentinel } := by
    simpa [beginState] using hmem
  subst hn
  refine ⟨?_, ?_, ?_, ?_⟩
  · intro p hp
    cases hp
  · simp [Node.init, dotW]
  · simp [Node.init, dotW]
  · intro p m hp hm
    cases hp

/-- Every lattice decodeWith builds is well-formed and nonempty. -/
theorem decodeWith_WF (d : Dictionary) (w : Weights) (t : Bool)
    (code text : Str) (bsz : Nat) (sched : List (List Nat)) :
    (decodeWith d w t code text bsz sched).beams ≠ [] ∧
    BeamsWF w t (decodeWith d w t code text bsz sched).beams := by
  unfold decodeWith
  obtain ⟨h1, h2⟩ := beginState_WF w t sched
  obtain ⟨h3, h4⟩ := decodeLoop_WF code.length 1 (beginState sched) h1 h2
  by_cases hok : (decodeLoop d w t code text bsz code.length 1 (beginState sched)).ok = true
  · rw [if_pos hok]
    exact endStep_WF h3 h4
  · rw [if_neg hok]
    exact ⟨h3, h4⟩

theorem getD_ne_nil_lt {bs : Beams} {s : Nat}
    (h : 0 < (bs.getD s []).length) : s < bs.length := by
  by_contra hc
  rw [List.getD_eq_getElem?_getD, List.getElem?_eq_none (by omega)] at h
  simp at h

theorem walkLocal_eq {w : Weights} {t : Bool} {bs : Beams} (hwf : BeamsWF w t bs) :
    ∀ (fuel s : Nat) (n : Node), s ≤ fuel → n ∈ bs.getD s [] →
      walkLocal w bs fuel n = n.local_score := by
  intro fuel
  induction fuel with
  | zero =>
    intro s n hs hmem
    obtain ⟨hptr, hls, _, _⟩ := hwf s n hmem
    have hs0 : s = 0 := by omega
    subst hs0
    cases hpn : n.prev with
    | none =>
      rw [hpn] at hls
      simp only [Option.none_bind, Option.map_none', Option.getD_none, zero_add] at hls
      unfold walkLocal
      exact hls.symm
    | some p =>
      exact absurd (hptr p hpn).2.1 (by omega)
  | succ f ih =>
    intro s n hs hmem
    obtain ⟨hptr, hls, _, _⟩ := hwf s n hmem
    cases hpn : n.prev with
    | none =>
      rw [hpn] at hls
      simp only [Option.none_bind, Option.map_none', Option.getD_none, zero_add] at hls
      unfold walkLocal
      rw [hpn]
      dsimp only
      rw [hls, add_zero]
    | some p =>
      obtain ⟨_, hstep, hidx⟩ := hptr p hpn
      have hplen : p.step < bs.length := by
        exact @getD_ne_nil_lt bs p.step (by omega)
      obtain ⟨m, hres, hmm, _⟩ := resolve_of_getD hplen hidx
      have hIH := ih p.step m (by omega) hmm
      rw [hpn, Option.some_bind, hres, Option.map_some', Option.getD_some] at hls
      unfold walkLocal
      rw [hpn]
      dsimp only
      rw [hres]
      dsimp only
      rw [hIH, hls, add_comm]

/-- C1: for every node of a lattice built by decode, the incremental
Model::compute_score result stored in the node (its local_score and score
fields) equals the reference Model::score computed by re-walking the whole
prev chain, summing weights times local features, and adding weights times
the global features of the node; unknown feature keys contribute 0 in both
(dotW looks each feature up and uses 0 when the key is absent). -/
theorem c1_compute_score_agrees (d : Dictionary) (w : Weights) (t : Bool)
    (code text : Str) (bsz : Nat) (sched : List (List Nat)) (s : Nat) (n : Node)
    (h : n ∈ (decodeWith d w t code text bsz sched).beams.getD s []) :
    n.local_score = walkLocal w (decodeWith d w t code text bsz sched).beams
        (decodeWith d w t code text bsz sched).beams.length n ∧
    n.score = walkScore w (decodeWith d w t code text bsz sched).beams
        (decodeWith d w t code text bsz sched).beams.length n := by
  obtain ⟨hne, hwf⟩ := decodeWith_WF d w t code text bsz sched
  have hlt := getD_pos_of_mem h
  have hloc := walkLocal_eq hwf _ s n (le_of_lt hlt) h
  obtain ⟨_, _, hsc, _⟩ := hwf s n h
  refine ⟨hloc.symm, ?_⟩
  rw [hsc]
  unfold walkScore
  rw [hloc]

theorem c1_witness :
    ((runX.beams.getD 1 []).getD 0 Node.init) ∈ runX.beams.getD 1 [] ∧
    (((runX.beams.getD 1 []).getD 0 Node.init).local_score =
      walkLocal [] runX.beams runX.beams.length
        ((runX.beams.getD 1 []).getD 0 Node.init) ∧
     ((runX.beams.getD 1 []).getD 0 Node.init).score =
      walkScore [] runX.beams runX.beams.length
        ((runX.beams.getD 1 []).getD 0 Node.init)) :=
  ⟨by decide,
   c1_compute_score_agrees dictX [] false (str "a") [] 1 [[0], [0]] 1
     ((runX.beams.getD 1 []).getD 0 Node.init) (by decide)⟩

/-- C8: for every non-root node of a lattice built by decode (shift, reduce
and end_decode nodes), the prev_word field satisfies the documented
invariant: if the predecessor carries a word then prev_word is the
predecessor itself, otherwise it is the predecessor's own prev_word. The
force-emplace of Decoder::match does NOT preserve this (see the
counterexample): when it rewires prev to a search-lattice node without a
word it keeps the old prev_word of the reference lattice. -/
theorem c8_prev_word_invariant (d : Dictionary) (w : Weights) (t : Bool)
    (code text : Str) (bsz : Nat) (sched : List (List Nat)) (s : Nat)
    (n : Node) (p : Ptr) (m : Node)
    (h : n ∈ (decodeWith d w t code text bsz sched).beams.getD s [])
    (hp : n.prev = some p)
    (hm : resolve (decodeWith d w t code text bsz sched).beams p = some m) :
    n.prev_word = if m.word.isSome then some p else m.prev_word := by
  obtain ⟨_, hwf⟩ := decodeWith_WF d w t code text bsz sched
  exact (hwf s n h).2.2.2 p m hp hm

theorem c8_witness :
    ((runX.beams.getD 1 []).getD 0 Node.init) ∈ runX.beams.getD 1 [] ∧
    ((runX.beams.getD 1 []).getD 0 Node.init).prev = some ⟨false, 0, 0⟩ ∧
    resolve runX.beams ⟨false, 0, 0⟩ =
      some ((runX.beams.getD 0 []).getD 0 Node.init) ∧
    ((runX.beams.getD 1 []).getD 0 Node.init).prev_word =
      (if ((runX.beams.getD 0 []).getD 0 Node.init).word.isSome
       then some ⟨false, 0, 0⟩
       else ((runX.beams.getD 0 []).getD 0 Node.init).prev_word) :=
  ⟨by decide, by decide, by decide,
   c8_prev_word_invariant dictX [] false (str "a") [] 1 [[0], [0]] 1
     ((runX.beams.getD 1 []).getD 0 Node.init) ⟨false, 0, 0⟩
     ((runX.beams.getD 0 []).getD 0 Node.init)
     (by decide) (by decide) (by decide)⟩

theorem c8_counterexample :
    ((coreQR.beams.getD 2 []).getD 1 Node.init) ∈ coreQR.beams.getD 2 [] ∧
    ((coreQR.beams.getD 2 []).getD 1 Node.init).prev = some ⟨false, 1, 0⟩ ∧
    (resolve coreQR.beams ⟨false, 1, 0⟩).map Node.word = some none ∧
    (resolve coreQR.beams ⟨false, 1, 0⟩).map Node.prev_word =
      some (some ⟨false, 0, 0⟩) ∧
    ((coreQR.beams.getD 2 []).getD 1 Node.init).prev_word =
      some ⟨true, 0, 0⟩ := by
  refine ⟨by decide, by decide, by decide, by decide, by decide⟩

/-- C5: when the text-constrained decode finds no reference path at
beam_size and the retry at twice the beam size also fails, update returns
position 0 and applies no model update: every weight is exactly as before
the call. -/
theorem c5_undecodable_leaves_model (d : Dictionary) (w : Weights) (lr : ℚ)
    (expF : ℚ → ℚ) (code text : Str) (bsz : Nat)
    (sch1 sch2 sch3 : List (List Nat))
    (h1 : (decodeWith d w true code text bsz sch1).ok = false)
    (h2 : (decodeWith d w true code text (bsz * 2) sch2).ok = false) :
    (decoderUpdate d w lr expF code text bsz sch1 sch2 sch3).pos = 0 ∧
    (decoderUpdate d w lr expF code text bsz sch1 sch2 sch3).model = w := by
  unfold decoderUpdate earlyUpdateTrain
  simp only [h1, Bool.false_eq_true, if_false, h2, gt_iff_lt, lt_irrefl]
  exact ⟨trivial, trivial⟩

theorem c5_witness :
    (decodeWith dictX [] true (str "a") (str "Z") 1 []).ok = false ∧
    (decodeWith dictX [] true (str "a") (str "Z") (1 * 2) []).ok = false ∧
    (decoderUpdate dictX [] 1 id (str "a") (str "Z") 1 [] [] []).pos = 0 ∧
    (decoderUpdate dictX [] 1 id (str "a") (str "Z") 1 [] [] []).model = [] :=
  ⟨by decide, by decide,
   (c5_undecodable_leaves_model dictX [] 1 id (str "a") (str "Z") 1 [] [] []
     (by decide) (by decide)).1,
   (c5_undecodable_leaves_model dictX [] 1 id (str "a") (str "Z") 1 [] [] []
     (by decide) (by decide)).2⟩

theorem labelScan_eq_find (indeces : List Nat) (len : Nat) :
    labelScan indeces len =
      ((indeces.find? (fun x => decide (x < len))).getD 0) := by
  induction indeces with
  | nil => rfl
  | cons x rest ih =>
    unfold labelScan
    rw [List.find?_cons]
    by_cases hx : x < len
    · rw [if_pos hx]
      simp only [hx, decide_True, Option.getD_some]
    · rw [if_neg hx]
      simp only [hx, decide_False]
      exact ih

/-- C4: the label early_update reports is the tracked index of the FIRST
reference (in reference order) whose index lies inside the final beam — the
selection loop breaks at the first i with indeces[i] < beams.back().size().
It is not in general the smallest surviving index value (see the
counterexample, where the first surviving reference has rank 1 while
another surviving reference has rank 0). -/
theorem c4_label_is_first_surviving (d : Dictionary) (w : Weights)
    (code : Str) (bsz : Nat) (paths : List (List Node))
    (sched : List (List Nat)) :
    (earlyUpdateCore d w code bsz paths sched).label =
      (((earlyUpdateCore d w code bsz paths sched).indeces.find?
        (fun x => decide (x <
          ((((earlyUpdateCore d w code bsz paths sched).beams.getLast?).getD
            []).length)))).getD 0) := by
  exact labelScan_eq_find _ _

theorem c4_counterexample :
    destWW.ok = true ∧ destWW.schedOk = true ∧ coreWW.schedOk = true ∧
    coreWW.indeces = [1, 0] ∧
    ((coreWW.beams.getLast?).getD []).length = 2 ∧
    coreWW.label = 1 := by
  refine ⟨by decide, by decide, by decide, by decide, by decide, by decide⟩

theorem filterMap_getElem_range {α : Type} (l : List α) :
    (List.range l.length).filterMap (fun i => l[i]?) = l := by
  induction l with
  | nil => rfl
  | cons b bs ih =>
    rw [List.length_cons, List.range_succ_eq_map, List.filterMap_cons]
    simp only [List.getElem?_cons_zero]
    rw [List.filterMap_map]
    have hfg : (fun i => (b :: bs)[i]?) ∘ Nat.succ = fun i => bs[i]? := by
      funext i
      simp
    rw [hfg, ih]

theorem perm_of_validPerm {p : List Nat} {beam : List Node}
    (h : validPerm p beam = true) : (applyPerm p beam).Perm beam := by
  unfold validPerm at h
  simp only [Bool.and_eq_true, decide_eq_true_eq, List.all_eq_true] at h
  obtain ⟨⟨hlen, hall⟩, _⟩ := h
  have hsub : List.range beam.length ⊆ p := by
    intro i hi
    have := hall i hi
    simpa using this
  have hsp : (List.range beam.length).Subperm p :=
    (List.nodup_range beam.length).subperm hsub
  have hperm : p.Perm (List.range beam.length) := by
    refine (hsp.perm_of_length_le ?_).symm
    rw [List.length_range]
    omega
  have h1 : (applyPerm p beam).Perm
      ((List.range beam.length).filterMap (fun i => beam[i]?)) :=
    hperm.filterMap _
  rw [filterMap_getElem_range] at h1
  exact h1

theorem sorted_of_descendingScores :
    ∀ {l : List ℚ}, descendingScores l = true → l.Sorted (fun a b => a ≥ b) := by
  intro l
  induction l with
  | nil => intro _; exact List.sorted_nil
  | cons a t ih =>
    cases t with
    | nil => intro _; exact List.sorted_singleton a
    | cons b t2 =>
      intro h
      unfold descendingScores at h
      rw [Bool.and_eq_true, decide_eq_true_eq] at h
      have hs := ih h.2
      have hs2 := hs
      rw [List.sorted_cons] at hs2
      rw [List.sorted_cons]
      refine ⟨?_, hs⟩
      intro x hx
      rcases List.mem_cons.mp hx with hxb | hxt
      · rw [hxb]
        exact h.1
      · exact le_trans (hs2.1 x hxt) h.1

theorem validPerm_scores {p : List Nat} {beam : List Node}
    (h : validPerm p beam = true) :
    (applyPerm p beam).map Node.score =
      (beam.map Node.score).insertionSort (fun a b => a ≥ b) := by
  have hperm := perm_of_validPerm h
  have hdesc : descendingScores ((applyPerm p beam).map Node.score) = true := by
    unfold validPerm at h
    simp only [Bool.and_eq_true] at h
    exact h.2
  have hsorted := sorted_of_descendingScores hdesc
  have hperm2 : ((applyPerm p beam).map Node.score).Perm
      ((beam.map Node.score).insertionSort (fun a b => a ≥ b)) :=
    (hperm.map Node.score).trans (List.perm_insertionSort _ _).symm
  exact List.eq_of_perm_of_sorted hperm2 hsorted (List.sorted_insertionSort _ _)

/-- C2: for any topk on a step's candidates, under any admissible outcome
of std::sort (a rearrangement with nonincreasing scores — the comparator
compares only scores and std::sort is NOT stable), the survivors are a
sub-permutation of the candidates carrying exactly the beam_size highest
scores: their score list is the first beam_size entries of the descending
sort of all candidate scores. Which of several equal-score candidates
survives is not determined by emplacement order (see the counterexample),
so the tie-breaking clause of the original claim does not hold. -/
theorem c2_topk_highest_scores (bsz : Nat) (beam : List Node) (st : DecSt)
    (p : List Nat) (rest : List (List Nat))
    (h : st.sched = p :: rest) (hv : validPerm p beam = true) :
    (topkStep bsz beam st).1.map Node.score =
      ((beam.map Node.score).insertionSort (fun a b => a ≥ b)).take bsz ∧
    List.Subperm (topkStep bsz beam st).1 beam := by
  unfold topkStep
  rw [h]
  dsimp only
  constructor
  · rw [List.map_take, validPerm_scores hv]
  · exact ((List.take_sublist _ _).subperm).trans (perm_of_validPerm hv).subperm

theorem c2_witness :
    ({ beams := [], sched := [[1, 0]], ok := true, schedOk := true } :
        DecSt).sched = [1, 0] :: [] ∧
    validPerm [1, 0] [Node.init, { Node.init with score := 1 }] = true ∧
    ((topkStep 1 [Node.init, { Node.init with score := 1 }]
        { beams := [], sched := [[1, 0]], ok := true, schedOk := true }).1.map
          Node.score =
      (([Node.init, { Node.init with score := 1 }].map
          Node.score).insertionSort (fun a b => a ≥ b)).take 1 ∧
     List.Subperm
       (topkStep 1 [Node.init, { Node.init with score := 1 }]
         { beams := [], sched := [[1, 0]], ok := true, schedOk := true }).1
       [Node.init, { Node.init with score := 1 }]) :=
  ⟨rfl, by decide,
   c2_topk_highest_scores 1 [Node.init, { Node.init with score := 1 }]
     { beams := [], sched := [[1, 0]], ok := true, schedOk := true }
     [1, 0] [] rfl (by decide)⟩

theorem c2_counterexample :
    runQRid.schedOk = true ∧ runQRswap.schedOk = true ∧
    runQRid.ok = true ∧ runQRswap.ok = true ∧
    (runQRid.beams.getD 2 []).map Node.score =
      (runQRswap.beams.getD 2 []).map Node.score ∧
    (runQRid.beams.getD 2 []).map Node.word = [some (WordRef.entry 0)] ∧
    (runQRswap.beams.getD 2 []).map Node.word = [some (WordRef.entry 1)] ∧
    (wordOf dictQR (WordRef.entry 0)).text = str "Q" ∧
    (wordOf dictQR (WordRef.entry 1)).text = str "R" := by
  refine ⟨by decide, by decide, by decide, by decide, by decide, by decide,
    by decide, by decide, by decide⟩

theorem digitsVal_append (xs : Str) (c : Char) :
    digitsVal (xs ++ [c]) = 10 * digitsVal xs + digitVal c := by
  unfold digitsVal
  rw [List.foldl_append]
  rfl

theorem digitsVal_cons_zero (xs : Str) : digitsVal ('0' :: xs) = digitsVal xs := rfl

theorem digitsVal_ofDigits (ds : List Nat) (h : ∀ d ∈ ds, d < 10) :
    digitsVal ((ds.reverse).map digitChar) = Nat.ofDigits 10 ds := by
  induction ds with
  | nil => rfl
  | cons d t ih =>
    rw [List.reverse_cons, List.map_append]
    simp only [List.map_cons, List.map_nil]
    rw [digitsVal_append, ih (fun x hx => h x (List.mem_cons_of_mem _ hx)),
      digitVal_digitChar (h d (List.mem_cons_self _ _)), Nat.ofDigits_cons]
    ring

theorem digitsVal_printNat (n : Nat) : digitsVal (printNat n) = n := by
  rw [printNat_eq]
  split
  · next h => rw [h]; rfl
  · exact digitsVal_ofDigits _ (fun d hd => Nat.digits_lt_base (by norm_num) hd)
      |>.trans (Nat.ofDigits_digits 10 n)

theorem digitsRev_lt (f : Nat) : ∀ (n : Nat), ∀ d ∈ digitsRev f n, d < 10 := by
  induction f with
  | zero => intro n d hd; simp [digitsRev] at hd
  | succ f ih =>
    intro n d hd
    unfold digitsRev at hd
    by_cases hn : n = 0
    · simp [hn] at hd
    · rw [if_neg hn] at hd
      rcases List.mem_cons.mp hd with h | h
      · rw [h]
        exact Nat.mod_lt _ (by norm_num)
      · exact ih _ d h

theorem takeWhile_append_all {p : Char → Bool} {xs : Str} (ys : Str)
    (h : ∀ c ∈ xs, p c = true) :
    (xs ++ ys).takeWhile p = xs ++ ys.takeWhile p := by
  induction xs with
  | nil => rfl
  | cons c t ih =>
    rw [List.cons_append, List.takeWhile_cons, h c (List.mem_cons_self _ _)]
    simp only [if_true]
    rw [ih (fun x hx => h x (List.mem_cons_of_mem _ hx)), List.cons_append]

theorem dropWhile_append_all {p : Char → Bool} {xs : Str} (ys : Str)
    (h : ∀ c ∈ xs, p c = true) :
    (xs ++ ys).dropWhile p = ys.dropWhile p := by
  induction xs with
  | nil => rfl
  | cons c t ih =>
    rw [List.cons_append, List.dropWhile_cons, h c (List.mem_cons_self _ _)]
    simp only [if_true]
    exact ih (fun x hx => h x (List.mem_cons_of_mem _ hx))

theorem takeWhile_all {p : Char → Bool} {xs : Str}
    (h : ∀ c ∈ xs, p c = true) : xs.takeWhile p = xs := by
  have := takeWhile_append_all (p := p) [] h
  simpa using this

theorem dropWhile_all {p : Char → Bool} {xs : Str}
    (h : ∀ c ∈ xs, p c = true) : xs.dropWhile p = [] := by
  have := dropWhile_append_all (p := p) [] h
  simpa using this

theorem ofDigits_replicate_zero (k : Nat) :
    Nat.ofDigits 10 (List.replicate k 0) = 0 := by
  induction k with
  | zero => rfl
  | succ k ih =>
    rw [List.replicate_succ, Nat.ofDigits_cons, ih]

theorem digits_len_le_of_lt {n L : Nat} (h : n < 10 ^ L) :
    (Nat.digits 10 n).length ≤ L := by
  by_contra hc
  push_neg at hc
  by_cases hn : n = 0
  · subst hn
    simp at hc
  · have h1 := Nat.base_pow_length_digits_le 10 n (by norm_num) hn
    have h2 : 10 ^ (L + 1) ≤ 10 ^ (Nat.digits 10 n).length :=
      Nat.pow_le_pow_right (by norm_num) (by omega)
    have h3 : 10 ^ (L + 1) = 10 * 10 ^ L := by ring
    omega

theorem padDigits_spec (n L : Nat) (h : n < 10 ^ L) :
    Nat.ofDigits 10 (padDigits n L) = n ∧ (padDigits n L).length = L := by
  unfold padDigits
  rw [digitsRev_eq (le_refl n)]
  constructor
  · rw [Nat.ofDigits_append, Nat.ofDigits_digits, ofDigits_replicate_zero]
    ring
  · rw [List.length_append, List.length_replicate]
    have hle : (Nat.digits 10 n).length ≤ L := digits_len_le_of_lt h
    omega

theorem fracStr_spec (n L : Nat) (h : n < 10 ^ L) :
    (∀ c ∈ fracStr n L, isDigitChar c = true) ∧
    (fracStr n L).length ≤ L ∧
    n = digitsVal (fracStr n L) * 10 ^ (L - (fracStr n L).length) := by
  obtain ⟨hof, hlen⟩ := padDigits_spec n L h
  have hlt : ∀ d ∈ padDigits n L, d < 10 := by
    intro d hd
    unfold padDigits at hd
    rcases List.mem_append.mp hd with h1 | h1
    · exact digitsRev_lt _ _ d h1
    · rw [List.eq_of_mem_replicate h1]
      norm_num
  have hsplit : (padDigits n L).takeWhile (fun d => d = 0) ++
      (padDigits n L).dropWhile (fun d => d = 0) = padDigits n L :=
    List.takeWhile_append_dropWhile _ _
  have htw0 : ∀ x ∈ (padDigits n L).takeWhile (fun d => d = 0), x = 0 := by
    intro x hx
    have := List.mem_takeWhile_imp hx
    simpa using this
  have htwz : Nat.ofDigits 10 ((padDigits n L).takeWhile (fun d => d = 0)) = 0 := by
    rw [List.eq_replicate_of_mem htw0]
    exact ofDigits_replicate_zero _
  have hdw10 : ∀ d ∈ (padDigits n L).dropWhile (fun d => d = 0), d < 10 :=
    fun d hd => hlt d ((List.dropWhile_sublist _).subset hd)
  have hfs : fracStr n L =
      (((padDigits n L).dropWhile (fun d => d = 0)).reverse).map digitChar := rfl
  have hdv : digitsVal (fracStr n L) =
      Nat.ofDigits 10 ((padDigits n L).dropWhile (fun d => d = 0)) := by
    rw [hfs]
    exact digitsVal_ofDigits _ hdw10
  have hflen : (fracStr n L).length =
      ((padDigits n L).dropWhile (fun d => d = 0)).length := by
    rw [hfs, List.length_map, List.length_reverse]
  have hlensum : ((padDigits n L).takeWhile (fun d => d = 0)).length +
      ((padDigits n L).dropWhile (fun d => d = 0)).length = L := by
    have := congrArg List.length hsplit
    rw [List.length_append] at this
    omega
  refine ⟨?_, ?_, ?_⟩
  · intro c hc
    rw [hfs] at hc
    rcases List.mem_map.mp hc with ⟨d, hd, rfl⟩
    exact isDigitChar_digitChar (hdw10 d (List.mem_reverse.mp hd))
  · omega
  · have hofs : Nat.ofDigits 10 (padDigits n L) =
        Nat.ofDigits 10 ((padDigits n L).takeWhile (fun d => d = 0)) +
          10 ^ ((padDigits n L).takeWhile (fun d => d = 0)).length *
            Nat.ofDigits 10 ((padDigits n L).dropWhile (fun d => d = 0)) := by
      conv =>
        lhs
        rw [← hsplit]
      rw [Nat.ofDigits_append]
    rw [hdv, hflen]
    have hLsub : L - ((padDigits n L).dropWhile (fun d => d = 0)).length =
        ((padDigits n L).takeWhile (fun d => d = 0)).length := by omega
    rw [hLsub]
    rw [hofs, htwz] at hof
    rw [Nat.mul_comm]
    linarith [hof]

theorem parseExpPart_sciExpStr (v : ℚ) (X : Int) :
    parseExpPart v (sciExpStr X) = some (v * (10 : ℚ) ^ X) := by
  have hnsd : ∀ c ∈ (if X.natAbs < 10 then '0' :: printNat X.natAbs
      else printNat X.natAbs), isDigitChar c = true := by
    split
    · intro c hc
      rcases List.mem_cons.mp hc with h | h
      · rw [h]
        decide
      · exact printNat_all_digits _ c h
    · exact printNat_all_digits _
  have hnsne : (if X.natAbs < 10 then '0' :: printNat X.natAbs
      else printNat X.natAbs) ≠ [] := by
    split
    · simp
    · exact printNat_ne_nil _
  have hdvns : digitsVal (if X.natAbs < 10 then '0' :: printNat X.natAbs
      else printNat X.natAbs) = X.natAbs := by
    split
    · rw [digitsVal_cons_zero, digitsVal_printNat]
    · rw [digitsVal_printNat]
  simp only [parseExpPart, sciExpStr]
  set ns := (if X.natAbs < 10 then '0' :: printNat X.natAbs
    else printNat X.natAbs) with hns
  by_cases hX : X < 0
  · simp only [if_pos hX]
    simp only [List.head?_cons, List.tail_cons]
    simp only [true_or, if_true]
    rw [takeWhile_all hnsd, dropWhile_all hnsd]
    rw [if_neg (by
      rintro (h1 | h2)
      · exact hnsne h1
      · exact h2 rfl)]
    rw [hdvns]
    have hexp : (-1 : Int) * (X.natAbs : Int) = X := by omega
    rw [hexp]
  · simp only [if_neg hX]
    simp only [List.head?_cons, List.tail_cons]
    rw [if_neg (show ¬((some '+' : Option Char) = some '-') from by decide)]
    simp only [or_true, if_true]
    rw [takeWhile_all hnsd, dropWhile_all hnsd]
    rw [if_neg (by
      rintro (h1 | h2)
      · exact hnsne h1
      · exact h2 rfl)]
    rw [hdvns]
    have hexp : (1 : Int) * (X.natAbs : Int) = X := by omega
    rw [hexp]

theorem parseUnsigned_noexp (ds fs : Str) (hd : ds ≠ [])
    (hdd : ∀ c ∈ ds, isDigitChar c = true)
    (hfd : ∀ c ∈ fs, isDigitChar c = true) :
    parseUnsigned (ds ++ (if fs = [] then [] else '.' :: fs)) =
      some ((digitsVal ds : ℚ) + (digitsVal fs : ℚ) / (10 : ℚ) ^ fs.length) := by
  by_cases hfs : fs = []
  · subst hfs
    rw [if_pos rfl, List.append_nil]
    simp only [parseUnsigned]
    rw [takeWhile_all hdd, dropWhile_all hdd]
    simp only [List.head?_nil]
    rw [if_neg (show ¬((none : Option Char) = some '.') from by decide),
      if_neg (show ¬((none : Option Char) = some '.') from by decide)]
    rw [if_neg (fun hh => hd hh.1)]
    rw [if_pos rfl]
  · rw [if_neg hfs]
    simp only [parseUnsigned]
    rw [takeWhile_append_all _ hdd, dropWhile_append_all _ hdd]
    rw [List.takeWhile_cons, List.dropWhile_cons]
    rw [show isDigitChar '.' = false from by decide]
    simp only [Bool.false_eq_true, if_false]
    rw [List.append_nil]
    simp only [List.head?_cons, List.tail_cons]
    simp only [if_true]
    rw [takeWhile_all hfd, dropWhile_all hfd]
    rw [if_neg (fun hh => hd hh.1)]
    rw [if_pos rfl]

theorem parseUnsigned_exp (ds fs t : Str) (hd : ds ≠ [])
    (hdd : ∀ c ∈ ds, isDigitChar c = true)
    (hfd : ∀ c ∈ fs, isDigitChar c = true) :
    parseUnsigned (ds ++ (if fs = [] then [] else '.' :: fs) ++ 'e' :: t) =
      parseExpPart ((digitsVal ds : ℚ) + (digitsVal fs : ℚ) / (10 : ℚ) ^ fs.length)
        t := by
  by_cases hfs : fs = []
  · subst hfs
    rw [if_pos rfl, List.append_nil]
    simp only [parseUnsigned]
    rw [takeWhile_append_all _ hdd, dropWhile_append_all _ hdd]
    rw [List.takeWhile_cons, List.dropWhile_cons]
    rw [show isDigitChar 'e' = false from by decide]
    simp only [Bool.false_eq_true, if_false]
    rw [List.append_nil]
    simp only [List.head?_cons, List.tail_cons]
    rw [if_neg (show ¬((some 'e' : Option Char) = some '.') from by decide),
      if_neg (show ¬((some 'e' : Option Char) = some '.') from by decide)]
    rw [if_neg (fun hh => hd hh.1)]
    rw [if_neg (List.cons_ne_nil _ _)]
    simp only [List.head?_cons, List.tail_cons, true_or, if_true]
  · rw [if_neg hfs]
    rw [List.append_assoc, List.cons_append]
    simp only [parseUnsigned]
    rw [takeWhile_append_all _ hdd, dropWhile_append_all _ hdd]
    rw [List.takeWhile_cons, List.dropWhile_cons]
    rw [show isDigitChar '.' = false from by decide]
    simp only [Bool.false_eq_true, if_false]
    rw [List.append_nil]
    simp only [List.head?_cons, List.tail_cons]
    simp only [if_true]
    rw [takeWhile_append_all _ hfd, dropWhile_append_all _ hfd]
    rw [List.takeWhile_cons, List.dropWhile_cons]
    rw [show isDigitChar 'e' = false from by decide]
    simp only [Bool.false_eq_true, if_false]
    rw [List.append_nil]
    rw [if_neg (fun hh => hd hh.1)]
    rw [if_neg (List.cons_ne_nil _ _)]
    simp only [List.head?_cons, List.tail_cons, true_or, if_true]

theorem parseUnsigned_formG (m : Nat) (X : Int) :
    parseUnsigned (formG m X) = some ((m : ℚ) * (10 : ℚ) ^ (X - 5)) := by
  unfold formG
  by_cases hb : -4 ≤ X ∧ X < 6
  · rw [if_pos hb]
    unfold fixedForm
    dsimp only
    have hX5 : X ≤ 5 := by omega
    have hL : ((((5 : Int) - X).toNat : Int)) = 5 - X :=
      Int.toNat_of_nonneg (by omega)
    have hpow : (0 : Nat) < 10 ^ ((5 : Int) - X).toNat := pow_pos (by norm_num) _
    have hF : m % 10 ^ ((5 : Int) - X).toNat < 10 ^ ((5 : Int) - X).toNat :=
      Nat.mod_lt _ hpow
    obtain ⟨hfd, hflen, hFeq⟩ := fracStr_spec (m % 10 ^ ((5 : Int) - X).toNat)
      (((5 : Int) - X).toNat) hF
    rw [parseUnsigned_noexp (printNat (m / 10 ^ ((5 : Int) - X).toNat))
      (fracStr (m % 10 ^ ((5 : Int) - X).toNat) (((5 : Int) - X).toNat))
      (printNat_ne_nil _) (printNat_all_digits _) hfd]
    congr 1
    rw [digitsVal_printNat]
    have hXL : X - 5 = -((((5 : Int) - X).toNat : Int)) := by omega
    rw [hXL, zpow_neg, zpow_natCast]
    have hm : (m : ℚ) =
        10 ^ ((5 : Int) - X).toNat * ((m / 10 ^ ((5 : Int) - X).toNat : Nat) : ℚ) +
          ((digitsVal (fracStr (m % 10 ^ ((5 : Int) - X).toNat)
            (((5 : Int) - X).toNat)) : Nat) : ℚ) *
            10 ^ (((5 : Int) - X).toNat -
              (fracStr (m % 10 ^ ((5 : Int) - X).toNat)
                (((5 : Int) - X).toNat)).length) := by
      have h := Nat.div_add_mod m (10 ^ ((5 : Int) - X).toNat)
      rw [hFeq] at h
      exact_mod_cast h.symm
    rw [hm]
    have hsplit : ((10 : ℚ)) ^ ((5 : Int) - X).toNat =
        10 ^ ((((5 : Int) - X).toNat) -
            (fracStr (m % 10 ^ ((5 : Int) - X).toNat)
              (((5 : Int) - X).toNat)).length) *
          10 ^ (fracStr (m % 10 ^ ((5 : Int) - X).toNat)
            (((5 : Int) - X).toNat)).length := by
      rw [← pow_add]
      congr 1
      omega
    rw [hsplit]
    have hne1 : ((10 : ℚ)) ^ (fracStr (m % 10 ^ ((5 : Int) - X).toNat)
        (((5 : Int) - X).toNat)).length ≠ 0 := by positivity
    have hne2 : ((10 : ℚ)) ^ ((((5 : Int) - X).toNat) -
        (fracStr (m % 10 ^ ((5 : Int) - X).toNat)
          (((5 : Int) - X).toNat)).length) ≠ 0 := by positivity
    field_simp
    ring
  · rw [if_neg hb]
    unfold sciForm
    have hF : m % 10 ^ 5 < 10 ^ 5 := Nat.mod_lt _ (by norm_num)
    obtain ⟨hfd, hflen, hFeq⟩ := fracStr_spec (m % 10 ^ 5) 5 hF
    rw [parseUnsigned_exp (printNat (m / 10 ^ 5)) (fracStr (m % 10 ^ 5) 5) _
      (printNat_ne_nil _) (printNat_all_digits _) hfd]
    rw [parseExpPart_sciExpStr]
    congr 1
    rw [digitsVal_printNat]
    have hm : (m : ℚ) =
        10 ^ 5 * ((m / 10 ^ 5 : Nat) : ℚ) +
          ((digitsVal (fracStr (m % 10 ^ 5) 5) : Nat) : ℚ) *
            10 ^ (5 - (fracStr (m % 10 ^ 5) 5).length) := by
      have h := Nat.div_add_mod m (10 ^ 5)
      rw [hFeq] at h
      exact_mod_cast h.symm
    have hX5 : X - 5 = X - ((5 : Nat) : Int) := by norm_num
    rw [hX5, zpow_sub₀ (by norm_num : (10 : ℚ) ≠ 0), zpow_natCast]
    rw [hm]
    have hsplit : ((10 : ℚ)) ^ (5 : Nat) =
        10 ^ ((5 : Nat) - (fracStr (m % 10 ^ 5) 5).length) *
          10 ^ (fracStr (m % 10 ^ 5) 5).length := by
      rw [← pow_add]
      congr 1
      omega
    rw [hsplit]
    have hne1 : ((10 : ℚ)) ^ (fracStr (m % 10 ^ 5) 5).length ≠ 0 := by positivity
    have hne2 : ((10 : ℚ)) ^ ((5 : Nat) - (fracStr (m % 10 ^ 5) 5).length) ≠ 0 := by
      positivity
    have hne3 : ((10 : ℚ)) ^ X ≠ 0 := zpow_ne_zero _ (by norm_num)
    field_simp
    ring

theorem digit_ne_sign {c : Char} (h : isDigitChar c = true) :
    c ≠ '-' ∧ c ≠ '+' := by
  constructor <;> (intro hx; rw [hx] at h; exact absurd h (by decide))

theorem formG_shape (m : Nat) (X : Int) :
    ∃ c cs, formG m X = c :: cs ∧ isDigitChar c = true := by
  have hp : ∀ (k : Nat) (rest : Str),
      ∃ c cs, printNat k ++ rest = c :: cs ∧ isDigitChar c = true := by
    intro k rest
    cases hk : printNat k with
    | nil => exact absurd hk (printNat_ne_nil k)
    | cons c cs =>
      refine ⟨c, cs ++ rest, by rw [List.cons_append], ?_⟩
      apply printNat_all_digits k
      rw [hk]
      exact List.mem_cons_self _ _
  unfold formG
  by_cases hb : -4 ≤ X ∧ X < 6
  · rw [if_pos hb]
    unfold fixedForm
    dsimp only
    exact hp _ _
  · rw [if_neg hb]
    unfold sciForm
    rw [List.append_assoc]
    exact hp _ _

theorem parseDouble_digit_head {s : Str} {c : Char} {cs : Str}
    (hs : s = c :: cs) (hc : isDigitChar c = true) :
    parseDouble s = parseUnsigned s := by
  subst hs
  unfold parseDouble
  simp only [List.head?_cons]
  obtain ⟨h1, h2⟩ := digit_ne_sign hc
  rw [if_neg (by simp [h1]), if_neg (by simp [h2])]

theorem fracStr_chars (n L : Nat) : ∀ c ∈ fracStr n L, isDigitChar c = true := by
  intro c hc
  unfold fracStr at hc
  rcases List.mem_map.mp hc with ⟨d, hd, rfl⟩
  apply isDigitChar_digitChar
  have hd2 := (List.dropWhile_sublist _).subset (List.mem_reverse.mp hd)
  unfold padDigits at hd2
  rcases List.mem_append.mp hd2 with h1 | h1
  · exact digitsRev_lt _ _ d h1
  · rw [List.eq_of_mem_replicate h1]
    norm_num

theorem sciExpStr_chars (X : Int) :
    ∀ c ∈ sciExpStr X, isDigitChar c = true ∨ c = '-' ∨ c = '+' := by
  intro c hc
  unfold sciExpStr at hc
  rcases List.mem_cons.mp hc with h | h
  · split at h
    · exact Or.inr (Or.inl h)
    · exact Or.inr (Or.inr h)
  · split at h
    · rcases List.mem_cons.mp h with h2 | h2
      · left
        rw [h2]
        decide
      · exact Or.inl (printNat_all_digits _ c h2)
    · exact Or.inl (printNat_all_digits _ c h)

theorem formG_chars (m : Nat) (X : Int) :
    ∀ c ∈ formG m X,
      isDigitChar c = true ∨ c = '.' ∨ c = 'e' ∨ c = '-' ∨ c = '+' := by
  intro c hc
  unfold formG at hc
  split at hc
  · unfold fixedForm at hc
    dsimp only at hc
    rcases List.mem_append.mp hc with h | h
    · exact Or.inl (printNat_all_digits _ c h)
    · split at h
      · simp at h
      · rcases List.mem_cons.mp h with h2 | h2
        · exact Or.inr (Or.inl h2)
        · exact Or.inl (fracStr_chars _ _ c h2)
  · unfold sciForm at hc
    rcases List.mem_append.mp hc with h | h
    · rcases List.mem_append.mp h with h1 | h1
      · exact Or.inl (printNat_all_digits _ c h1)
      · split at h1
        · simp at h1
        · rcases List.mem_cons.mp h1 with h2 | h2
          · exact Or.inr (Or.inl h2)
          · exact Or.inl (fracStr_chars _ _ c h2)
    · rcases List.mem_cons.mp h with h1 | h1
      · exact Or.inr (Or.inr (Or.inl h1))
      · rcases sciExpStr_chars X c h1 with h2 | h2 | h2
        · exact Or.inl h2
        · exact Or.inr (Or.inr (Or.inr (Or.inl h2)))
        · exact Or.inr (Or.inr (Or.inr (Or.inr h2)))

theorem printDouble_chars (q : ℚ) :
    ∀ c ∈ printDouble q, isWsChar c = false ∧ c ≠ '\n' := by
  have hsafe : ∀ {c : Char},
      (isDigitChar c = true ∨ c = '.' ∨ c = 'e' ∨ c = '-' ∨ c = '+') →
      isWsChar c = false ∧ c ≠ '\n' := by
    intro c h
    rcases h with h | h | h | h | h
    · exact digit_not_ws h
    · rw [h]
      exact ⟨by decide, by decide⟩
    · rw [h]
      exact ⟨by decide, by decide⟩
    · rw [h]
      exact ⟨by decide, by decide⟩
    · rw [h]
      exact ⟨by decide, by decide⟩
  intro c hc
  unfold printDouble at hc
  split at hc
  · simp at hc
    rw [hc]
    exact ⟨by decide, by decide⟩
  · split at hc
    · rcases List.mem_cons.mp hc with h | h
      · rw [h]
        exact ⟨by decide, by decide⟩
      · exact hsafe (formG_chars _ _ c h)
    · exact hsafe (formG_chars _ _ c hc)

theorem printDouble_ne_nil (q : ℚ) : printDouble q ≠ [] := by
  unfold printDouble
  split
  · simp
  · split
    · simp
    · obtain ⟨c, cs, heq, _⟩ := formG_shape (sig6 q).1 (sig6 q).2
      rw [heq]
      simp

theorem parseDouble_printDouble (q : ℚ) :
    parseDouble (printDouble q) = some (sigRound6 q) := by
  unfold printDouble sigRound6
  by_cases h0 : q = 0
  · rw [if_pos h0, if_pos h0]
    decide
  · rw [if_neg h0, if_neg h0]
    by_cases hneg : q < 0
    · rw [if_pos hneg, if_pos hneg]
      unfold parseDouble
      simp only [List.head?_cons, List.tail_cons, if_true]
      rw [parseUnsigned_formG]
      rfl
    · rw [if_neg hneg, if_neg hneg]
      obtain ⟨c, cs, heq, hc⟩ := formG_shape (sig6 q).1 (sig6 q).2
      rw [parseDouble_digit_head heq hc, parseUnsigned_formG]

theorem saveModel_splitLines (w : Weights)
    (hkeys : ∀ p ∈ w, p.1 ≠ [] ∧ ∀ c ∈ p.1, isWsChar c = false) :
    splitSep '\n' (saveModel w) =
      (w.map (fun p => p.1 ++ '\t' :: printDouble p.2)) ++ [[]] := by
  induction w with
  | nil => rfl
  | cons p rest ih =>
    have key : saveModel (p :: rest) =
        (p.1 ++ '\t' :: printDouble p.2) ++ '\n' :: saveModel rest := by
      simp [saveModel]
    have hchars : ∀ c ∈ p.1 ++ '\t' :: printDouble p.2, c ≠ '\n' := by
      intro c hc
      rcases List.mem_append.mp hc with h | h
      · intro hx
        have hw := (hkeys p (List.mem_cons_self _ _)).2 c h
        rw [hx] at hw
        exact absurd hw (by decide)
      · rcases List.mem_cons.mp h with h1 | h1
        · rw [h1]
          decide
        · exact (printDouble_chars p.2 c h1).2
    rw [key, splitSep_append _ hchars,
      ih (fun q hq => hkeys q (List.mem_cons_of_mem _ hq))]
    simp

theorem parseModelLine_save (p : Str × ℚ) (hk : p.1 ≠ [])
    (hkw : ∀ c ∈ p.1, isWsChar c = false) :
    parseModelLine (p.1 ++ '\t' :: printDouble p.2) = some (p.1, sigRound6 p.2) := by
  unfold parseModelLine
  rw [splitWs_key_tab_tok hk hkw (printDouble_ne_nil p.2)
    (fun c hc => (printDouble_chars p.2 c hc).1)]
  dsimp only
  rw [parseDouble_printDouble]
  rfl

theorem filterMap_eq_map_of {α β : Type} {f : α → Option β} {g : α → β}
    {l : List α} (h : ∀ a ∈ l, f a = some (g a)) : l.filterMap f = l.map g := by
  induction l with
  | nil => rfl
  | cons a t ih =>
    rw [List.filterMap_cons, h a (List.mem_cons_self _ _), List.map_cons,
      ih (fun x hx => h x (List.mem_cons_of_mem _ hx))]

theorem find?_map_snd (g : ℚ → ℚ) (w : Weights) (k : Str) :
    ((w.map (fun p => (p.1, g p.2))).find? (fun e => decide (e.1 = k))).map (·.2) =
      ((w.find? (fun e => decide (e.1 = k))).map (·.2)).map g := by
  induction w with
  | nil => rfl
  | cons p t ih =>
    rw [List.map_cons]
    by_cases h : p.1 = k
    · rw [List.find?_cons_of_pos _ (by simp [h]),
        List.find?_cons_of_pos _ (by simp [h])]
      rfl
    · rw [List.find?_cons_of_neg _ (by simp [h]),
        List.find?_cons_of_neg _ (by simp [h])]
      exact ih

/-- C7 (amended): for every model whose feature keys are nonempty and free
of whitespace — true of every key the program itself constructs — loading
the text written by Model::save restores exactly the key set, and each
stored weight equals the 6-significant-digit decimal rounding of the saved
value, because the stream writes doubles at its default precision 6.
Weights that need more than 6 significant digits are NOT restored exactly,
and a key containing whitespace breaks the line format entirely; see the
counterexample for both failures of the original claim. -/
theorem c7_save_load_roundtrip (w0 w : Weights)
    (hkeys : ∀ p ∈ w, p.1 ≠ [] ∧ ∀ c ∈ p.1, isWsChar c = false) (k : Str) :
    findWeight (loadModel w0 (saveModel w)) k =
      (findWeight w k).map sigRound6 := by
  unfold loadModel
  rw [findWeight_foldl_emplaceW]
  rw [saveModel_splitLines w hkeys, List.filterMap_append, List.filterMap_map]
  have hself : w.filterMap
      (parseModelLine ∘ (fun p : Str × ℚ => p.1 ++ '\t' :: printDouble p.2)) =
      w.map (fun p => (p.1, sigRound6 p.2)) := by
    apply filterMap_eq_map_of
    intro p hp
    exact parseModelLine_save p (hkeys p hp).1 (hkeys p hp).2
  rw [show ((fun line => parseModelLine line) ∘
      (fun p : Str × ℚ => p.1 ++ '\t' :: printDouble p.2)) =
      (parseModelLine ∘ (fun p : Str × ℚ => p.1 ++ '\t' :: printDouble p.2))
      from rfl] at hself
  rw [hself]
  have hnil : List.filterMap parseModelLine [([] : Str)] = [] := rfl
  rw [hnil, List.append_nil]
  rw [show findWeight [] k = none from rfl, Option.none_or]
  unfold findWeight
  exact find?_map_snd sigRound6 w k

/-- C7 witness: a concrete one-entry model with a safe key and a weight
expressible in 6 significant digits round-trips to its rounding. -/
theorem c7_witness :
    findWeight (loadModel [] (saveModel [(str "unigram:x", 3 / 2)]))
        (str "unigram:x") =
      (findWeight [(str "unigram:x", 3 / 2)] (str "unigram:x")).map sigRound6 := by
  apply c7_save_load_roundtrip
  intro p hp
  rcases List.mem_singleton.mp hp with rfl
  exact ⟨by decide, by decide⟩

/-- C7 counterexample, refuting the original exact round-trip claim twice
over: a weight needing 9 significant digits is reloaded as its
6-significant-digit rounding 0.123457, not the saved value; and a key
containing a space is torn apart by the whitespace tokenization of load,
so the original key maps to nothing afterwards. -/
theorem c7_counterexample :
    findWeight (loadModel [] (saveModel [(str "k", 123456789 / 1000000000)]))
        (str "k") = some (123457 / 1000000) ∧
    ((123457 / 1000000 : ℚ) = 123456789 / 1000000000 → False) ∧
    findWeight (loadModel [] (saveModel [(str "a b", 2)])) (str "a b") = none := by
  refine ⟨by decide, by decide, by decide⟩
